import Mathlib

/-!
Shallow embedding of the core of the `nest-timelapse` repository
(Go), and theorems checking its natural-language specification.

Modelling conventions, used throughout:

* Absolute timestamps (`time.Time`) are modelled as integers counting
  nanoseconds since the Unix epoch (a naive wall clock; time zones are
  out of scope of the embedded computations, which never convert
  between locations).  `time.Duration` values are likewise integer
  nanosecond counts.
* Go `int64` overflow is made explicit where the source can hit it:
  `wrap64` reduces modulo `2 ^ 64` into `[-2 ^ 63, 2 ^ 63)`, and
  `time.Time.Sub` saturates at the extreme `int64` values exactly as
  the Go standard library does.
* Go integer division truncates toward zero, which is `Int.tdiv`.
* The `speedup` parameter of `GenerateFrames` is a `float64` in the
  source; every float is a rational, and its single use is the Go
  conversion `time.Duration(speedup)`, which truncates toward zero, so
  it is modelled as a rational together with that truncation.
* Fallible Go functions returning `(T, error)` become `Except String T`;
  functions returning `(*T, error)` where `(nil, nil)` is a meaningful
  "absent" outcome become `Except String (Option T)`.  A Go runtime
  panic (integer division by zero, out-of-range slice index) is
  modelled as `Option.none` at the outermost level: `none` means the
  source panics instead of returning anything.
-/

/-! ## Go integer primitives -/

/-- Largest `int64` value. -/
def int64Max : ℤ := 9223372036854775807

/-- Smallest `int64` value. -/
def int64Min : ℤ := -9223372036854775808

/-- Reduce an integer into the `int64` range, as Go two's-complement
arithmetic does on overflow. -/
def wrap64 (z : ℤ) : ℤ := (z + 2 ^ 63) % 2 ^ 64 - 2 ^ 63

/-- Go `int64` addition (wraps on overflow). -/
def goAdd64 (a b : ℤ) : ℤ := wrap64 (a + b)

/-- Go `int64` multiplication (wraps on overflow). -/
def goMul64 (a b : ℤ) : ℤ := wrap64 (a * b)

/-- Go `int64` quotient: truncated division; the single overflow case
`int64Min / -1` wraps back to `int64Min`, as the Go spec prescribes.
The divisor is assumed nonzero (division by zero is a Go panic and is
handled by the callers of this helper). -/
def goQuo64 (a b : ℤ) : ℤ := wrap64 (a.tdiv b)

/-- `time.Time.Sub`: the difference saturates at the `int64` bounds. -/
def goTimeSub (a b : ℤ) : ℤ := max int64Min (min int64Max (a - b))

/-- The Go conversion `int64(f)` / `time.Duration(f)` of a `float64`:
truncation toward zero.  Every finite float is a rational number. -/
def goTruncToInt (q : ℚ) : ℤ := q.num.tdiv q.den

/-! ## Package `parsetime`: `MakeTimeRange`

Source: `MakeTimeRange(start, end *time.Time, duration *time.Duration)
(*TimeRange, error)`.  `now` (the source calls `time.Now()`) is passed
explicitly, and `epoch` is `time.Unix(0, 0)`, i.e. `0` in our
nanosecond count. -/

/-- `parsetime.TimeRange`. -/
structure TimeRange where
  Start : ℤ
  End : ℤ
  deriving Repr, DecidableEq

/-- `parsetime.MakeTimeRange`, with the call-time `time.Now()` value
passed in as `now`. -/
def MakeTimeRange (start stop : Option ℤ) (dur : Option ℤ) (now : ℤ) :
    Except String TimeRange :=
  match start, stop with
  | some s, some e =>
    if dur.isSome then
      .error "cannot provide duration when both start and end times are specified"
    else if e < s then
      .error "end time is before start time"
    else
      .ok ⟨s, e⟩
  | _, _ =>
    match dur with
    | some d =>
      match start with
      | some s => .ok ⟨s, s + d⟩
      | none =>
        match stop with
        | some e => .ok ⟨e - d, e⟩
        | none => .ok ⟨now - d, now⟩
    | none =>
      .ok ⟨start.getD 0, stop.getD now⟩

/-! ## Character and digit helpers shared by the parsers -/

/-- ASCII decimal digit test, as written in the Go source
(`r >= '0' && r <= '9'`). -/
def isDigitChar (c : Char) : Bool := '0' ≤ c && c ≤ '9'

/-- ASCII letter test, as written in `ParseTime`
(`(r >= 'a' && r <= 'z') || (r >= 'A' && r <= 'Z')`). -/
def isLetterChar (c : Char) : Bool := ('a' ≤ c && c ≤ 'z') || ('A' ≤ c && c ≤ 'Z')

/-- Numeric value of a digit character. -/
def digitVal (c : Char) : ℕ := c.toNat - '0'.toNat

/-- Decimal value of a digit string (most significant first). -/
def valDigits (l : List Char) : ℕ := l.foldl (fun acc c => 10 * acc + digitVal c) 0

/-- Digit character of a value `< 10`. -/
def digitChar (n : ℕ) : Char := Char.ofNat ('0'.toNat + n)

/-- Two-digit zero-padded decimal rendering (the Go `time.Format`
verbs `01`, `02`, `15`, `04`, `05` for the in-range field values a
normalized `time.Time` always carries). -/
def pad2 (n : ℕ) : List Char := [digitChar (n / 10 % 10), digitChar (n % 10)]

/-- Four-digit zero-padded decimal rendering (the Go `time.Format`
verb `2006` for years `0..9999`). -/
def pad4 (n : ℕ) : List Char :=
  [digitChar (n / 1000 % 10), digitChar (n / 100 % 10),
   digitChar (n / 10 % 10), digitChar (n % 10)]

/-! ## The Go `time` package's reference-layout parser, specialized to
the three layouts the source uses: `15:04`, `2006-01-02`, and
`20060102_150405`.  `getnum` and `getnum4` mirror the helpers of
`time/format.go`: a non-fixed numeric field takes one or two digits, a
fixed one exactly two, the year exactly four; parsed values are
range-checked, and leftover input is an error. -/

/-- `time/format.go getnum`: one digit, or two when available; `fixed`
requires exactly two. -/
def getnum (fixed : Bool) : List Char → Except String (ℕ × List Char)
  | [] => .error "bad value for field"
  | c1 :: rest =>
    if isDigitChar c1 then
      match rest with
      | c2 :: rest2 =>
        if isDigitChar c2 then .ok (10 * digitVal c1 + digitVal c2, rest2)
        else if fixed then .error "bad value for field"
        else .ok (digitVal c1, rest)
      | [] =>
        if fixed then .error "bad value for field" else .ok (digitVal c1, [])
    else .error "bad value for field"

/-- `time/format.go getnum4`: exactly four digits. -/
def getnum4 : List Char → Except String (ℕ × List Char)
  | a :: b :: c :: d :: rest =>
    if isDigitChar a && isDigitChar b && isDigitChar c && isDigitChar d then
      .ok (valDigits [a, b, c, d], rest)
    else .error "bad value for field"
  | _ => .error "bad value for field"

/-- Consume one literal layout character. -/
def expectChar (c : Char) : List Char → Except String (List Char)
  | [] => .error "bad value for field"
  | x :: xs => if x == c then .ok xs else .error "bad value for field"

/-- Leap-year rule of `time.isLeap`. -/
def isLeapYear (y : ℕ) : Bool := y % 4 == 0 && (y % 100 != 0 || y % 400 == 0)

/-- `time.daysIn`. -/
def daysIn (y mo : ℕ) : ℕ :=
  if mo = 2 then (if isLeapYear y then 29 else 28)
  else if mo = 4 ∨ mo = 6 ∨ mo = 9 ∨ mo = 11 then 30
  else 31

/-- Parse the layout `15:04` against the whole input, with the hour
and minute range checks `time.Parse` applies. -/
def parseClockLayout (l : List Char) : Except String (ℕ × ℕ) :=
  match getnum false l with
  | .error e => .error e
  | .ok (h, r1) =>
    match expectChar ':' r1 with
    | .error e => .error e
    | .ok r2 =>
      match getnum true r2 with
      | .error e => .error e
      | .ok (mi, r3) =>
        if r3 = [] then
          if h ≤ 23 then
            if mi ≤ 59 then .ok (h, mi) else .error "minute out of range"
          else .error "hour out of range"
        else .error "extra text"

/-- Parse the layout `2006-01-02` against the whole input, with the
month and day range checks (`daysIn` is leap-aware) `time.Parse`
applies. -/
def parseDateLayout (l : List Char) : Except String (ℕ × ℕ × ℕ) :=
  match getnum4 l with
  | .error e => .error e
  | .ok (y, r1) =>
    match expectChar '-' r1 with
    | .error e => .error e
    | .ok r2 =>
      match getnum true r2 with
      | .error e => .error e
      | .ok (mo, r3) =>
        match expectChar '-' r3 with
        | .error e => .error e
        | .ok r4 =>
          match getnum true r4 with
          | .error e => .error e
          | .ok (d, r5) =>
            if r5 = [] then
              if 1 ≤ mo ∧ mo ≤ 12 then
                if 1 ≤ d ∧ d ≤ daysIn y mo then .ok (y, mo, d)
                else .error "day out of range"
              else .error "month out of range"
            else .error "extra text"

/-- Parse the layout `20060102_150405` against the whole input, with
all range checks `time.Parse` applies. -/
def parseStampLayout (l : List Char) :
    Except String (ℕ × ℕ × ℕ × ℕ × ℕ × ℕ) :=
  match getnum4 l with
  | .error e => .error e
  | .ok (y, r1) =>
    match getnum true r1 with
    | .error e => .error e
    | .ok (mo, r2) =>
      match getnum true r2 with
      | .error e => .error e
      | .ok (d, r3) =>
        match expectChar '_' r3 with
        | .error e => .error e
        | .ok r4 =>
          match getnum false r4 with
          | .error e => .error e
          | .ok (h, r5) =>
            match getnum true r5 with
            | .error e => .error e
            | .ok (mi, r6) =>
              match getnum true r6 with
              | .error e => .error e
              | .ok (s, r7) =>
                if r7 = [] then
                  if 1 ≤ mo ∧ mo ≤ 12 then
                    if 1 ≤ d ∧ d ≤ daysIn y mo then
                      if h ≤ 23 then
                        if mi ≤ 59 then
                          if s ≤ 59 then .ok (y, mo, d, h, mi, s)
                          else .error "second out of range"
                        else .error "minute out of range"
                      else .error "hour out of range"
                    else .error "day out of range"
                  else .error "month out of range"
                else .error "extra text"

/-! ## The artifact-naming convention (`video.ExtractFirstFrame` and
`frames.parseFrameTime`) -/

/-- A broken-down wall-clock instant (naive: no location). -/
structure DateTime where
  year : ℕ
  month : ℕ
  day : ℕ
  hour : ℕ
  minute : ℕ
  second : ℕ
  nanos : ℕ
  deriving Repr, DecidableEq

/-- Calendar validity of an instant, with the year range the 8-digit
date encoding of the naming convention covers (a normalized Go
`time.Time` produced by `time.Now` always satisfies this). -/
def ValidInstant (dt : DateTime) : Prop :=
  dt.year ≤ 9999 ∧ 1 ≤ dt.month ∧ dt.month ≤ 12 ∧
  1 ≤ dt.day ∧ dt.day ≤ daysIn dt.year dt.month ∧
  dt.hour ≤ 23 ∧ dt.minute ≤ 59 ∧ dt.second ≤ 59 ∧ dt.nanos < 1000000000

instance (dt : DateTime) : Decidable (ValidInstant dt) := by
  unfold ValidInstant; infer_instance

/-- Truncation to whole seconds. -/
def truncSec (dt : DateTime) : DateTime := { dt with nanos := 0 }

/-- The filename `ExtractFirstFrame` writes:
`nest_camera_frame_` + `now.Format("20060102_150405")` + `.jpg`. -/
def frameFilename (dt : DateTime) : List Char :=
  ("nest_camera_frame_".toList) ++
  pad4 dt.year ++ pad2 dt.month ++ pad2 dt.day ++
  '_' :: (pad2 dt.hour ++ pad2 dt.minute ++ pad2 dt.second) ++
  (".jpg".toList)

/-- `filepath.Base` for the paths this program builds (which never end
in a path separator): the suffix after the last `/`. -/
def goBasename (l : List Char) : List Char :=
  (l.reverse.takeWhile (fun c => c ≠ '/')).reverse

/-- `filepath.Ext`: the suffix starting at the final dot, or empty. -/
def goExt (l : List Char) : List Char :=
  let tail := l.reverse.takeWhile (fun c => c ≠ '.')
  if tail.length = l.length then [] else '.' :: tail.reverse

/-- `strings.TrimSuffix`. -/
def goTrimSuffix (l suf : List Char) : List Char :=
  if suf.isSuffixOf l then l.take (l.length - suf.length) else l

/-- `strings.Split` on a single separator character (keeps empty
fields; the split of the empty string is one empty field). -/
def goSplit (sep : Char) : List Char → List (List Char)
  | [] => [[]]
  | c :: cs =>
    if c = sep then [] :: goSplit sep cs
    else
      match goSplit sep cs with
      | [] => [[c]]
      | p :: ps => (c :: p) :: ps

/-- `frames.parseFrameTime`.  `none` models the index-out-of-range
panic the source hits when the base name splits into exactly four
`_`-separated parts (it checks `len(parts) < 4` but then reads
`parts[4]`). -/
def parseFrameTime (filename : List Char) : Option (Except String DateTime) :=
  let base := goBasename filename
  let parts := goSplit '_' base
  if parts.length < 4 then some (.error "invalid filename format")
  else
    match parts.drop 3 with
    | dateStr :: timeRaw :: _ =>
      let timeStr := goTrimSuffix timeRaw (goExt timeRaw)
      match parseStampLayout (dateStr ++ '_' :: timeStr) with
      | .ok (y, mo, d, h, mi, s) => some (.ok ⟨y, mo, d, h, mi, s, 0⟩)
      | .error _ => some (.error "invalid timestamp in filename")
    | _ => none

/-! ## Package `parsetime`: `ParseDuration` -/

/-- Unit letter test of `ParseDuration`
(`r == 'w' || r == 'd' || r == 'h' || r == 'm'`). -/
def isUnitChar (c : Char) : Bool := c == 'w' || c == 'd' || c == 'h' || c == 'm'

/-- The character loop of `ParseDuration`: split the input into
`<digits><unit>` parts.  State: remaining input, accumulated parts
(reversed), the current builder, and the `inNumber` flag.  Note the Go
loop has no branch for a unit letter while `inNumber` is false, so
such a letter is silently skipped. -/
def splitDurParts : List Char → List (List Char) → List Char → Bool →
    Except String (List (List Char))
  | [], parts, _, inNum =>
    if inNum then .error "incomplete duration: missing unit"
    else .ok parts.reverse
  | c :: cs, parts, cur, inNum =>
    if !inNum && isDigitChar c then splitDurParts cs parts (cur ++ [c]) true
    else if inNum && isDigitChar c then splitDurParts cs parts (cur ++ [c]) true
    else if inNum && isUnitChar c then splitDurParts cs ((cur ++ [c]) :: parts) [] false
    else if !isDigitChar c && !isUnitChar c then .error "invalid character in duration"
    else splitDurParts cs parts cur inNum

/-- `strconv.Atoi` on the digit strings this program feeds it: errors
on an empty or non-digit string and on `int64` overflow. -/
def goAtoi (l : List Char) : Except String ℤ :=
  if l = [] then .error "invalid syntax"
  else if l.all isDigitChar then
    if (valDigits l : ℤ) ≤ int64Max then .ok (valDigits l)
    else .error "value out of range"
  else .error "invalid syntax"

/-- `strings.TrimRightFunc(part, not-a-digit)`: the numeral of a part. -/
def numOfPart (p : List Char) : List Char :=
  (p.reverse.dropWhile (fun c => !isDigitChar c)).reverse

/-- `strings.TrimLeftFunc(part, digit)`: the unit of a part. -/
def unitOfPart (p : List Char) : List Char := p.dropWhile isDigitChar

/-- Nanoseconds in a minute. -/
def minuteNs : ℤ := 60000000000

/-- Nanoseconds in an hour. -/
def hourNs : ℤ := 3600000000000

/-- One part's contribution: `Atoi` the numeral, then the `switch` on
the unit, with the exact association of the Go `Duration`
multiplications (which wrap on overflow). -/
def termOfPart (p : List Char) : Except String ℤ :=
  match goAtoi (numOfPart p) with
  | .error e => .error e
  | .ok n =>
    match unitOfPart p with
    | ['w'] => .ok (goMul64 (goMul64 (goMul64 n 7) 24) hourNs)
    | ['d'] => .ok (goMul64 (goMul64 n 24) hourNs)
    | ['h'] => .ok (goMul64 n hourNs)
    | ['m'] => .ok (goMul64 n minuteNs)
    | _ => .error "invalid unit in duration"

/-- The summing loop of `ParseDuration`: `total += term` over the
parts, aborting on the first error. -/
def sumParts : List (List Char) → ℤ → Except String ℤ
  | [], acc => .ok acc
  | p :: ps, acc =>
    match termOfPart p with
    | .error e => .error e
    | .ok t => sumParts ps (goAdd64 acc t)

/-- `parsetime.ParseDuration` on a character list.  `.ok none` is the
Go `(nil, nil)` return for the empty string ("no duration"). -/
def parseDurationChars (l : List Char) : Except String (Option ℤ) :=
  if l = [] then .ok none
  else
    match splitDurParts l [] [] false with
    | .error e => .error e
    | .ok parts =>
      match sumParts parts 0 with
      | .error e => .error e
      | .ok total => .ok (some total)

/-- `parsetime.ParseDuration`. -/
def ParseDuration (s : String) : Except String (Option ℤ) :=
  parseDurationChars s.toList

/-- Nanosecond value of one duration unit letter (the spec's week,
day, hour, minute). -/
def unitNanos (c : Char) : ℤ :=
  if c = 'w' then 604800000000000
  else if c = 'd' then 86400000000000
  else if c = 'h' then hourNs
  else if c = 'm' then minuteNs
  else 0

/-- A `<integer><unit>` term list of the spec's compound-duration
grammar, rendered to text: each term is a nonempty digit string
followed by its unit letter. -/
def renderTerms (ts : List (List Char × Char)) : List Char :=
  (ts.map (fun t => t.1 ++ [t.2])).flatten

/-- The exact (unbounded) sum of a term list, in nanoseconds. -/
def durTermsSum (ts : List (List Char × Char)) : ℤ :=
  (ts.map (fun t => (valDigits t.1 : ℤ) * unitNanos t.2)).sum

/-- Well-formedness of one grammar term: nonempty digits and a
recognized unit letter. -/
def WfTerm (t : List Char × Char) : Prop :=
  t.1 ≠ [] ∧ (∀ c ∈ t.1, isDigitChar c = true) ∧ isUnitChar t.2 = true

instance (t : List Char × Char) : Decidable (WfTerm t) := by
  unfold WfTerm; infer_instance

/-! ## Package `parsetime`: `ParseTime` -/

/-- The `strings.FieldsFunc` separator predicate of `ParseTime`: any
rune that is not a digit, not an ASCII letter, not `:` and not `-`. -/
def isFieldSep (c : Char) : Bool :=
  !(isDigitChar c || isLetterChar c || c == ':' || c == '-')

/-- Worker for `fieldsFunc`: `cur` is the reversed current field. -/
def fieldsFuncAux (f : Char → Bool) : List Char → List Char → List (List Char)
  | [], cur => if cur = [] then [] else [cur.reverse]
  | c :: cs, cur =>
    if f c then
      if cur = [] then fieldsFuncAux f cs []
      else cur.reverse :: fieldsFuncAux f cs []
    else fieldsFuncAux f cs (c :: cur)

/-- `strings.FieldsFunc`: maximal runs of non-separator characters
(empty fields are dropped). -/
def fieldsFunc (f : Char → Bool) (l : List Char) : List (List Char) :=
  fieldsFuncAux f l []

/-- `parsetime.ParseTime`, with the current local date (from the
source's `time.Now()`) passed in as `nowY`, `nowMo`, `nowD`.  `.ok
none` is the Go `(nil, nil)` return for the empty string. -/
def parseTimeChars (nowY nowMo nowD : ℕ) (l : List Char) :
    Except String (Option DateTime) :=
  if l = [] then .ok none
  else if l.contains ':' && !(l.contains '-') then
    match parseClockLayout l with
    | .ok (h, mi) => .ok (some ⟨nowY, nowMo, nowD, h, mi, 0, 0⟩)
    | .error _ => .error "invalid time format (must be HH:MM)"
  else
    match fieldsFunc isFieldSep l with
    | [] => .error "invalid time value: empty after splitting"
    | [p] =>
      match parseDateLayout p with
      | .ok (y, mo, d) => .ok (some ⟨y, mo, d, 0, 0, 0, 0⟩)
      | .error _ => .error "invalid date format (must be YYYY-MM-DD)"
    | [p, q] =>
      match parseDateLayout p with
      | .error _ => .error "invalid date format (must be YYYY-MM-DD)"
      | .ok (y, mo, d) =>
        match parseClockLayout q with
        | .ok (h, mi) => .ok (some ⟨y, mo, d, h, mi, 0, 0⟩)
        | .error _ => .error "invalid time format (must be HH:MM)"
    | _ => .error "invalid time value: bad shape"

/-- `parsetime.ParseTime`. -/
def ParseTime (nowY nowMo nowD : ℕ) (s : String) : Except String (Option DateTime) :=
  parseTimeChars nowY nowMo nowD s.toList

/-! ## Package `frames`: `GenerateFrames`

We embed the pure core of the first (directory-walk) variant of
`GenerateFrames`, starting from the point where the candidate
artifacts and their parsed capture times are known (the preceding
directory I/O is glue): the time-range filter, the `NoArtifacts`
check, the sort, and the merge walk.  The second (glob) variant
shares this core verbatim. -/

/-- `frames.FrameInfo`.  `Time` is in nanoseconds since the Unix
epoch; `Duration` in nanoseconds. -/
structure FrameInfo where
  Path : String
  Duration : ℤ
  Time : ℤ
  deriving Repr, DecidableEq

/-- `maxFPS`. -/
def maxFPS : ℤ := 60

/-- `minFrameDuration = time.Second / time.Duration(maxFPS)`:
Go integer division, `1000000000 / 60 = 16666666` nanoseconds. -/
def minFrameDuration : ℤ := goQuo64 1000000000 maxFPS

/-- The time-range filter of `GenerateFrames`: an artifact is dropped
when `t.Before(timeRange.Start) || t.After(timeRange.End)`. -/
def inTimeRange (tr : Option TimeRange) (t : ℤ) : Bool :=
  match tr with
  | none => true
  | some r => !(t < r.Start || r.End < t)

/-- Build `validFrames`: keep the candidates inside the time range,
with the zero-valued `Duration` a fresh Go struct carries. -/
def collectValidFrames (tr : Option TimeRange) (arts : List (String × ℤ)) :
    List FrameInfo :=
  (arts.filter (fun a => inTimeRange tr a.2)).map (fun a => ⟨a.1, 0, a.2⟩)

/-- The `sort.Slice(validFrames, less Time.Before)` call.  Go's
`sort.Slice` guarantees the result is a permutation of the input that
is nondecreasing in the ordering, and guarantees nothing else (in
particular not stability); we model it with a merge sort, which has
exactly those two guaranteed properties, and no theorem below depends
on the order of time ties. -/
def sortFrames (fs : List FrameInfo) : List FrameInfo :=
  fs.mergeSort (fun a b => decide (a.Time ≤ b.Time))

/-- The single gap computation of the merge walk:
`nextTime.Sub(currentFrame.Time) / time.Duration(speedup)`.
`none` models the Go division-by-zero panic, hit whenever the
`float64` speedup truncates to zero (any ratio in `(-1, 1)`). -/
def candidateDuration (cur next : ℤ) (speedup : ℚ) : Option ℤ :=
  let s := goTruncToInt speedup
  if s = 0 then none else some (goQuo64 (goTimeSub next cur) s)

/-- The merge walk of `GenerateFrames` over the sorted frames:
emit `current` with the computed gap once the gap reaches
`minFrameDuration`, otherwise keep merging; always emit the final
frame with `Duration 0`. -/
def scheduleFrames (speedup : ℚ) (cur : FrameInfo) :
    List FrameInfo → Option (List FrameInfo)
  | [] => some [{ cur with Duration := 0 }]
  | next :: rest =>
    match candidateDuration cur.Time next.Time speedup with
    | none => none
    | some d =>
      if d < minFrameDuration then scheduleFrames speedup cur rest
      else
        match scheduleFrames speedup next rest with
        | none => none
        | some tail => some ({ cur with Duration := d } :: tail)

/-- The pure core of `frames.GenerateFrames`: filter, `NoArtifacts`
check, sort, merge walk.  The outer `Option` is `none` when the
source panics; the inner `Except` is the error channel (on error the
frame channel receives nothing). -/
def GenerateFrames (arts : List (String × ℤ)) (speedup : ℚ)
    (tr : Option TimeRange) : Option (Except String (List FrameInfo)) :=
  let valid := collectValidFrames tr arts
  if valid = [] then some (.error "no valid image files found in directory")
  else
    match sortFrames valid with
    | [] => none
    | c :: rest => (scheduleFrames speedup c rest).map Except.ok

/-! ## `getCameraImage` (capture run control flow)

The capture run sequences collaborator calls; each call's outcome is
an input to the model, and the model composes them exactly as the
source does.  Both copies of `getCameraImage` in the repository have
the same control flow and the same error wrapping. -/

/-- Outcomes of the collaborator calls `getCameraImage` makes, in
source order.  `closeOutcome` is the `waitForConnectionClose` result
(`none` = closed in time, `some e` = error `e`, e.g. the timeout
message `failed to close connection: timeout`); `videoArrives` is
whether the buffered video data is delivered within the 5s collection
window. -/
structure CaptureEnv where
  credentials : Except String Unit
  sdmService : Except String Unit
  findCamera : Except String Unit
  setupPeer : Except String Unit
  transceivers : Except String Unit
  offer : Except String Unit
  relayAnswer : Except String Unit
  setRemote : Except String Unit
  waitConn : Except String Unit
  closeOutcome : Option String
  videoArrives : Bool
  extract : Except String Unit

/-- `getCameraImage`.  The second component reports whether the run
reached the point of collecting the recorded buffer and handing it to
`extractFirstFrame` (true exactly when the `select` received the
buffer). -/
def getCameraImage (env : CaptureEnv) : Except String Unit × Bool :=
  match env.credentials with
  | .error e => (.error ("failed to get credentials: " ++ e), false)
  | .ok _ =>
  match env.sdmService with
  | .error e => (.error e, false)
  | .ok _ =>
  match env.findCamera with
  | .error e => (.error e, false)
  | .ok _ =>
  match env.setupPeer with
  | .error e => (.error e, false)
  | .ok _ =>
  match env.transceivers with
  | .error e => (.error e, false)
  | .ok _ =>
  match env.offer with
  | .error e => (.error e, false)
  | .ok _ =>
  match env.relayAnswer with
  | .error e => (.error e, false)
  | .ok _ =>
  match env.setRemote with
  | .error e => (.error ("failed to set remote description: " ++ e), false)
  | .ok _ =>
  match env.waitConn with
  | .error e => (.error e, false)
  | .ok _ =>
  match env.closeOutcome with
  | some e => (.error ("failed to clean up connection: " ++ e), false)
  | none =>
    if env.videoArrives then
      match env.extract with
      | .error e => (.error ("failed to extract frame: " ++ e), true)
      | .ok _ => (.ok (), true)
    else (.error "timeout waiting for video data", false)

/-! # Theorems -/

/-! ## C3: the `MakeTimeRange` precedence table -/

/-- C3 (amended): `MakeTimeRange` reproduces the precedence table for
all 8 presence combinations of start, end and duration, with `now`
the call-time clock value — except that in the end-only and
no-arguments cases the produced start is the Unix epoch
(`time.Unix(0, 0)`, our `0`), not the minimum representable
timestamp. -/
theorem MakeTimeRange_precedence :
    (∀ s e d now, MakeTimeRange (some s) (some e) (some d) now =
      .error "cannot provide duration when both start and end times are specified") ∧
    (∀ s e now, s ≤ e → MakeTimeRange (some s) (some e) none now = .ok ⟨s, e⟩) ∧
    (∀ s e now, e < s → MakeTimeRange (some s) (some e) none now =
      .error "end time is before start time") ∧
    (∀ s d now, MakeTimeRange (some s) none (some d) now = .ok ⟨s, s + d⟩) ∧
    (∀ e d now, MakeTimeRange none (some e) (some d) now = .ok ⟨e - d, e⟩) ∧
    (∀ d now, MakeTimeRange none none (some d) now = .ok ⟨now - d, now⟩) ∧
    (∀ s now, MakeTimeRange (some s) none none now = .ok ⟨s, now⟩) ∧
    (∀ e now, MakeTimeRange none (some e) none now = .ok ⟨0, e⟩) ∧
    (∀ now, MakeTimeRange none none none now = .ok ⟨0, now⟩) := by
  refine ⟨?_, ?_, ?_, ?_, ?_, ?_, ?_, ?_, ?_⟩ <;>
    intros <;> simp_all [MakeTimeRange]

/-- Witness for C3's theorem at concrete inputs. -/
theorem MakeTimeRange_precedence_witness :
    MakeTimeRange (some 10) (some 20) none 99 = .ok ⟨10, 20⟩ ∧
    MakeTimeRange (some 20) (some 10) none 99 =
      .error "end time is before start time" ∧
    MakeTimeRange none none (some 7) 100 = .ok ⟨93, 100⟩ :=
  ⟨MakeTimeRange_precedence.2.1 10 20 99 (by decide),
   MakeTimeRange_precedence.2.2.1 20 10 99 (by decide),
   MakeTimeRange_precedence.2.2.2.2.2.1 7 100⟩

/-- C3 counterexample: in the end-only case the produced start is the
Unix epoch `0`, which is not the minimum representable timestamp:
the same function accepts and returns the strictly smaller timestamp
`-1` (one nanosecond before the epoch). -/
theorem MakeTimeRange_epoch_not_minimum :
    MakeTimeRange none (some 1000) none 5000 = .ok ⟨0, 1000⟩ ∧
    MakeTimeRange (some (-1)) (some 1000) none 5000 = .ok ⟨-1, 1000⟩ ∧
    ((-1 : ℤ) < 0) := by
  refine ⟨rfl, ?_, by decide⟩
  simp [MakeTimeRange]

/-! ## C6: the `Start ≤ End` invariant of returned ranges -/

/-- C6 (amended): `Start ≤ End` is guaranteed only where the source
checks or computes it — when both start and end are given (the
inverted case is rejected), and in every duration case with a
nonnegative duration.  (The end-only and start-only default cases can
return an inverted range; see the counterexample.) -/
theorem MakeTimeRange_start_le_end_when_checked :
    (∀ s e now r, MakeTimeRange (some s) (some e) none now = .ok r →
      r.Start ≤ r.End) ∧
    (∀ st en d now r, 0 ≤ d → MakeTimeRange st en (some d) now = .ok r →
      r.Start ≤ r.End) := by
  constructor
  · intro s e now r h
    by_cases he : e < s
    · simp [MakeTimeRange, he] at h
    · simp [MakeTimeRange, he] at h
      subst h
      simpa using not_lt.mp he
  · intro st en d now r hd h
    match st, en with
    | some s, some e => simp [MakeTimeRange] at h
    | some s, none =>
      simp [MakeTimeRange] at h
      subst h; simpa using hd
    | none, some e =>
      simp [MakeTimeRange] at h
      subst h; simpa using hd
    | none, none =>
      simp [MakeTimeRange] at h
      subst h; simpa using hd

/-- Witness for C6's theorem at concrete inputs. -/
theorem MakeTimeRange_start_le_end_witness :
    (0 : ℤ) ≤ 3600 ∧ (⟨40, 140⟩ : TimeRange).Start ≤ (⟨40, 140⟩ : TimeRange).End :=
  ⟨by decide,
   MakeTimeRange_start_le_end_when_checked.2 (some 40) none 100 7 ⟨40, 140⟩
     (by decide) (by simp [MakeTimeRange])⟩

/-- C6 counterexample: an end-only call with an end one day before
the Unix epoch succeeds and returns a range with `Start > End` — the
claimed invariant is violated by a returned value, with no
construction error. -/
theorem MakeTimeRange_inverted_range_returned :
    MakeTimeRange none (some (-86400000000000)) none 1700000000000000000 =
      .ok ⟨0, -86400000000000⟩ ∧
    ¬((0 : ℤ) ≤ -86400000000000) := by
  exact ⟨rfl, by decide⟩

/-! ## C5: a close-phase timeout and the fate of the capture run -/

/-- C5 (amended): a close-phase error (including `CloseTimeout`) is
fatal to the capture run: after a completed recording window,
`getCameraImage` wraps it as `failed to clean up connection` and
returns it, overriding the prior success, and the recorded media
buffer is never collected. -/
theorem close_error_is_fatal (env : CaptureEnv) (e : String)
    (h1 : env.credentials = .ok ()) (h2 : env.sdmService = .ok ())
    (h3 : env.findCamera = .ok ()) (h4 : env.setupPeer = .ok ())
    (h5 : env.transceivers = .ok ()) (h6 : env.offer = .ok ())
    (h7 : env.relayAnswer = .ok ()) (h8 : env.setRemote = .ok ())
    (h9 : env.waitConn = .ok ()) (hc : env.closeOutcome = some e) :
    getCameraImage env =
      (.error ("failed to clean up connection: " ++ e), false) := by
  unfold getCameraImage
  rw [h1, h2, h3, h4, h5, h6, h7, h8, h9, hc]

/-- Witness for C5's theorem at a concrete environment. -/
theorem close_error_is_fatal_witness :
    getCameraImage
      ⟨.ok (), .ok (), .ok (), .ok (), .ok (), .ok (), .ok (), .ok (), .ok (),
        some "failed to close connection: timeout", true, .ok ()⟩ =
      (.error "failed to clean up connection: failed to close connection: timeout",
        false) :=
  close_error_is_fatal _ _ rfl rfl rfl rfl rfl rfl rfl rfl rfl rfl

/-- C5 counterexample: with every stage before teardown successful,
the recording window completed, the buffered video ready to be
delivered and the extraction step able to succeed, a close timeout
still makes the run return the wrapped close error and skip buffer
collection (second component `false`) — the error is propagated, not
merely logged. -/
theorem close_timeout_propagates :
    getCameraImage
      ⟨.ok (), .ok (), .ok (), .ok (), .ok (), .ok (), .ok (), .ok (), .ok (),
        some "failed to close connection: timeout", true, .ok ()⟩ =
      (.error "failed to clean up connection: failed to close connection: timeout",
        false) ∧
    getCameraImage
      ⟨.ok (), .ok (), .ok (), .ok (), .ok (), .ok (), .ok (), .ok (), .ok (),
        none, true, .ok ()⟩ = (.ok (), true) := ⟨rfl, rfl⟩

/-! ## Scheduler lemmas (`frames.GenerateFrames`) -/

/-- When the truncated speedup is nonzero, the gap computation is
defined and is the truncated `int64` division. -/
theorem candidateDuration_some (cur next : ℤ) (q : ℚ)
    (hs : goTruncToInt q ≠ 0) :
    candidateDuration cur next q =
      some (goQuo64 (goTimeSub next cur) (goTruncToInt q)) := by
  simp [candidateDuration, hs]

/-- When the truncated speedup is zero, the gap computation panics. -/
theorem candidateDuration_none (cur next : ℤ) (q : ℚ)
    (hs : goTruncToInt q = 0) : candidateDuration cur next q = none := by
  simp [candidateDuration, hs]

/-- A gap of at least `minFrameDuration` between time-ordered frames
forces a strict time increase: at equal times the computed gap is 0. -/
theorem lt_of_minFrameDuration_le_quo (a b s : ℤ) (hab : a ≤ b)
    (h : minFrameDuration ≤ goQuo64 (goTimeSub b a) s) : a < b := by
  rcases lt_or_eq_of_le hab with hlt | heq
  · exact hlt
  · exfalso
    subst heq
    have h0 : goTimeSub a a = 0 := by
      simp [goTimeSub, int64Max, int64Min]
    rw [h0] at h
    have h1 : goQuo64 0 s = 0 := by
      simp [goQuo64, Int.zero_tdiv, wrap64]
    rw [h1] at h
    have : minFrameDuration = 16666666 := by decide
    omega

/-- The merge walk never panics when the truncated speedup is
nonzero. -/
theorem scheduleFrames_isSome (q : ℚ) (hs : goTruncToInt q ≠ 0) :
    ∀ (l : List FrameInfo) (cur : FrameInfo),
      ∃ out, scheduleFrames q cur l = some out := by
  intro l
  induction l with
  | nil => intro cur; exact ⟨_, rfl⟩
  | cons next rest ih =>
    intro cur
    rcases ih cur with ⟨o1, ho1⟩
    rcases ih next with ⟨o2, ho2⟩
    simp only [scheduleFrames, candidateDuration_some cur.Time next.Time q hs]
    by_cases hd :
        goQuo64 (goTimeSub next.Time cur.Time) (goTruncToInt q) < minFrameDuration
    · rw [if_pos hd]
      exact ⟨o1, ho1⟩
    · rw [if_neg hd, ho2]
      exact ⟨_, rfl⟩

/-- A successful merge walk starts with the pending `current` frame
(same path and time, freshly computed duration). -/
theorem scheduleFrames_head (q : ℚ) :
    ∀ (l : List FrameInfo) (cur : FrameInfo) (out : List FrameInfo),
      scheduleFrames q cur l = some out →
      ∃ d tail, out = ⟨cur.Path, d, cur.Time⟩ :: tail := by
  intro l
  induction l with
  | nil =>
    intro cur out h
    simp only [scheduleFrames] at h
    cases h
    exact ⟨0, [], rfl⟩
  | cons next rest ih =>
    intro cur out h
    cases hcd : candidateDuration cur.Time next.Time q with
    | none => simp [scheduleFrames, hcd] at h
    | some d =>
      simp only [scheduleFrames, hcd] at h
      by_cases hd : d < minFrameDuration
      · rw [if_pos hd] at h
        exact ih cur out h
      · rw [if_neg hd] at h
        cases hrec : scheduleFrames q next rest with
        | none => rw [hrec] at h; cases h
        | some tail =>
          rw [hrec] at h
          cases h
          exact ⟨d, tail, rfl⟩

/-- Output length bounds of the merge walk. -/
theorem scheduleFrames_length (q : ℚ) :
    ∀ (l : List FrameInfo) (cur : FrameInfo) (out : List FrameInfo),
      scheduleFrames q cur l = some out →
      1 ≤ out.length ∧ out.length ≤ l.length + 1 := by
  intro l
  induction l with
  | nil =>
    intro cur out h
    simp only [scheduleFrames] at h
    cases h
    simp
  | cons next rest ih =>
    intro cur out h
    cases hcd : candidateDuration cur.Time next.Time q with
    | none => simp [scheduleFrames, hcd] at h
    | some d =>
      simp only [scheduleFrames, hcd] at h
      by_cases hd : d < minFrameDuration
      · rw [if_pos hd] at h
        have := ih cur out h
        constructor
        · exact this.1
        · have := this.2; simp; omega
      · rw [if_neg hd] at h
        cases hrec : scheduleFrames q next rest with
        | none => rw [hrec] at h; cases h
        | some tail =>
          rw [hrec] at h
          cases h
          have := ih next tail hrec
          constructor
          · simp
          · simp only [List.length_cons]
            have := this.2; omega

/-- The last frame of a successful merge walk carries duration 0. -/
theorem scheduleFrames_last (q : ℚ) :
    ∀ (l : List FrameInfo) (cur : FrameInfo) (out : List FrameInfo),
      scheduleFrames q cur l = some out →
      ∃ lf, out.getLast? = some lf ∧ lf.Duration = 0 := by
  intro l
  induction l with
  | nil =>
    intro cur out h
    simp only [scheduleFrames] at h
    cases h
    exact ⟨_, rfl, rfl⟩
  | cons next rest ih =>
    intro cur out h
    cases hcd : candidateDuration cur.Time next.Time q with
    | none => simp [scheduleFrames, hcd] at h
    | some d =>
      simp only [scheduleFrames, hcd] at h
      by_cases hd : d < minFrameDuration
      · rw [if_pos hd] at h
        exact ih cur out h
      · rw [if_neg hd] at h
        cases hrec : scheduleFrames q next rest with
        | none => rw [hrec] at h; cases h
        | some tail =>
          rw [hrec] at h
          cases h
          rcases ih next tail hrec with ⟨lf, hlf, hdur⟩
          cases tail with
          | nil => cases hlf
          | cons t ts => exact ⟨lf, (List.getLast?_cons_cons).trans hlf, hdur⟩

/-- Every frame except possibly the last one emitted by a successful
merge walk has duration at least `minFrameDuration`. -/
theorem scheduleFrames_dropLast (q : ℚ) :
    ∀ (l : List FrameInfo) (cur : FrameInfo) (out : List FrameInfo),
      scheduleFrames q cur l = some out →
      ∀ f ∈ out.dropLast, minFrameDuration ≤ f.Duration := by
  intro l
  induction l with
  | nil =>
    intro cur out h
    simp only [scheduleFrames] at h
    cases h
    simp
  | cons next rest ih =>
    intro cur out h
    cases hcd : candidateDuration cur.Time next.Time q with
    | none => simp [scheduleFrames, hcd] at h
    | some d =>
      simp only [scheduleFrames, hcd] at h
      by_cases hd : d < minFrameDuration
      · rw [if_pos hd] at h
        exact ih cur out h
      · rw [if_neg hd] at h
        cases hrec : scheduleFrames q next rest with
        | none => rw [hrec] at h; cases h
        | some tail =>
          rw [hrec] at h
          cases h
          intro f hf
          cases tail with
          | nil => simp at hf
          | cons t ts =>
            rw [List.dropLast_cons₂] at hf
            rcases List.mem_cons.mp hf with hcur | htail
            · subst hcur
              exact not_lt.mp hd
            · exact ih next (t :: ts) hrec f htail

/-- Every frame emitted by a successful merge walk has the path and
time of the pending frame or of one of the walked frames. -/
theorem scheduleFrames_mem (q : ℚ) :
    ∀ (l : List FrameInfo) (cur : FrameInfo) (out : List FrameInfo),
      scheduleFrames q cur l = some out →
      ∀ f ∈ out, ∃ g, (g = cur ∨ g ∈ l) ∧ f.Path = g.Path ∧ f.Time = g.Time := by
  intro l
  induction l with
  | nil =>
    intro cur out h
    simp only [scheduleFrames] at h
    cases h
    intro f hf
    simp at hf
    subst hf
    exact ⟨cur, Or.inl rfl, rfl, rfl⟩
  | cons next rest ih =>
    intro cur out h
    cases hcd : candidateDuration cur.Time next.Time q with
    | none => simp [scheduleFrames, hcd] at h
    | some d =>
      simp only [scheduleFrames, hcd] at h
      by_cases hd : d < minFrameDuration
      · rw [if_pos hd] at h
        intro f hf
        rcases ih cur out h f hf with ⟨g, hg, hp, ht⟩
        rcases hg with hg | hg
        · exact ⟨g, Or.inl hg, hp, ht⟩
        · exact ⟨g, Or.inr (List.mem_cons_of_mem next hg), hp, ht⟩
      · rw [if_neg hd] at h
        cases hrec : scheduleFrames q next rest with
        | none => rw [hrec] at h; cases h
        | some tail =>
          rw [hrec] at h
          cases h
          intro f hf
          rcases List.mem_cons.mp hf with hcur | htail
          · subst hcur
            exact ⟨cur, Or.inl rfl, rfl, rfl⟩
          · rcases ih next tail hrec f htail with ⟨g, hg, hp, ht⟩
            rcases hg with hg | hg
            · exact ⟨g, Or.inr (by simp [hg]), hp, ht⟩
            · exact ⟨g, Or.inr (List.mem_cons_of_mem next hg), hp, ht⟩

/-- On a time-nondecreasing input, the frames emitted by a successful
merge walk are strictly increasing in capture time. -/
theorem scheduleFrames_chain (q : ℚ) :
    ∀ (l : List FrameInfo) (cur : FrameInfo) (out : List FrameInfo),
      List.Pairwise (fun a b : FrameInfo => a.Time ≤ b.Time) (cur :: l) →
      scheduleFrames q cur l = some out →
      List.Chain' (fun a b : FrameInfo => a.Time < b.Time) out := by
  intro l
  induction l with
  | nil =>
    intro cur out _ h
    simp only [scheduleFrames] at h
    cases h
    exact List.chain'_singleton _
  | cons next rest ih =>
    intro cur out hp h
    cases hcd : candidateDuration cur.Time next.Time q with
    | none => simp [scheduleFrames, hcd] at h
    | some d =>
      simp only [scheduleFrames, hcd] at h
      rcases List.pairwise_cons.mp hp with ⟨hcurle, hp1⟩
      by_cases hd : d < minFrameDuration
      · rw [if_pos hd] at h
        refine ih cur out ?_ h
        refine List.pairwise_cons.mpr ⟨?_, hp1.of_cons⟩
        intro x hx
        exact hcurle x (List.mem_cons_of_mem next hx)
      · rw [if_neg hd] at h
        cases hrec : scheduleFrames q next rest with
        | none => rw [hrec] at h; cases h
        | some tail =>
          rw [hrec] at h
          cases h
          have hchain : List.Chain' (fun a b : FrameInfo => a.Time < b.Time) tail :=
            ih next tail hp1 hrec
          refine List.chain'_cons'.mpr ⟨?_, hchain⟩
          intro y hy
          rcases scheduleFrames_head q rest next tail hrec with ⟨d2, tail2, htail⟩
          subst htail
          simp at hy
          subst hy
          have hle : cur.Time ≤ next.Time := hcurle next (List.mem_cons_self next rest)
          by_cases hz : goTruncToInt q = 0
          · rw [candidateDuration_none cur.Time next.Time q hz] at hcd
            cases hcd
          · rw [candidateDuration_some cur.Time next.Time q hz] at hcd
            cases hcd
            exact lt_of_minFrameDuration_le_quo cur.Time next.Time
              (goTruncToInt q) hle (not_lt.mp hd)

/-- `sortFrames` permutes its input (a `sort.Slice` guarantee). -/
theorem sortFrames_perm (fs : List FrameInfo) : (sortFrames fs).Perm fs :=
  List.mergeSort_perm fs _

/-- `sortFrames` output is nondecreasing in capture time (a
`sort.Slice` guarantee for the `Time.Before` ordering). -/
theorem sortFrames_pairwise (fs : List FrameInfo) :
    List.Pairwise (fun a b : FrameInfo => a.Time ≤ b.Time) (sortFrames fs) := by
  have h := @List.sorted_mergeSort FrameInfo
    (fun a b : FrameInfo => decide (a.Time ≤ b.Time))
    (fun a b c hab hbc => by
      simp only [decide_eq_true_eq] at hab hbc ⊢
      exact le_trans hab hbc)
    (fun a b => by
      simp only [Bool.or_eq_true, decide_eq_true_eq]
      exact le_total a.Time b.Time)
    fs
  exact h.imp (fun hab => by simpa using hab)

/-! ## C1: invariants of the emitted schedule -/

/-- C1 (amended): for every artifact set nonempty after interval
filtering and every speedup whose Go truncation to `int64` is nonzero
(ratios in `(-1, 1)`, hence in particular the positive ratios below 1,
make the source panic with a division by zero), `GenerateFrames`
succeeds and its schedule satisfies: capture times strictly increase;
the frame count is between 1 and the filtered artifact count; every
frame except the last has `Duration ≥ minFrameDuration` (which is
`⌊1s/60⌋ = 16666666 ns`, not the exact rational `1/60 s` — see the
counterexample); and the last frame has `Duration = 0`. -/
theorem GenerateFrames_schedule_invariants
    (arts : List (String × ℤ)) (q : ℚ) (tr : Option TimeRange)
    (hne : collectValidFrames tr arts ≠ [])
    (hs : goTruncToInt q ≠ 0) :
    ∃ out, GenerateFrames arts q tr = some (.ok out) ∧
      List.Chain' (fun a b : FrameInfo => a.Time < b.Time) out ∧
      1 ≤ out.length ∧ out.length ≤ (collectValidFrames tr arts).length ∧
      (∀ f ∈ out.dropLast, minFrameDuration ≤ f.Duration) ∧
      (∃ lf, out.getLast? = some lf ∧ lf.Duration = 0) := by
  unfold GenerateFrames
  rw [if_neg hne]
  cases hsorted : sortFrames (collectValidFrames tr arts) with
  | nil =>
    have hperm := sortFrames_perm (collectValidFrames tr arts)
    rw [hsorted] at hperm
    exact absurd hperm.symm.eq_nil hne
  | cons c rest =>
    obtain ⟨out, hout⟩ := scheduleFrames_isSome q hs rest c
    refine ⟨out, ?_, ?_, ?_, ?_, ?_, ?_⟩
    · show Option.map Except.ok (scheduleFrames q c rest) = some (Except.ok out)
      rw [hout]; rfl
    · have hpw := sortFrames_pairwise (collectValidFrames tr arts)
      rw [hsorted] at hpw
      exact scheduleFrames_chain q rest c out hpw hout
    · exact (scheduleFrames_length q rest c out hout).1
    · have hlen := (scheduleFrames_length q rest c out hout).2
      have hperm := (sortFrames_perm (collectValidFrames tr arts)).length_eq
      rw [hsorted] at hperm
      simp only [List.length_cons] at hperm
      omega
    · exact scheduleFrames_dropLast q rest c out hout
    · exact scheduleFrames_last q rest c out hout

/-- Witness for C1's theorem at a concrete input: two artifacts 30
seconds apart, speedup 30. -/
theorem GenerateFrames_schedule_invariants_witness :
    ∃ out,
      GenerateFrames [("a", 0), ("b", 30000000000)] 30 none = some (.ok out) ∧
      List.Chain' (fun a b : FrameInfo => a.Time < b.Time) out ∧
      1 ≤ out.length ∧
      out.length ≤ (collectValidFrames none [("a", 0), ("b", 30000000000)]).length ∧
      (∀ f ∈ out.dropLast, minFrameDuration ≤ f.Duration) ∧
      (∃ lf, out.getLast? = some lf ∧ lf.Duration = 0) :=
  GenerateFrames_schedule_invariants [("a", 0), ("b", 30000000000)] 30 none
    (by decide) (by decide)

/-- C1 counterexample: with artifacts one second apart and speedup 60
(a positive ratio), the non-final frame is emitted with duration
exactly `16666666 ns`, which is strictly less than `1/60` of a second
(`16666666 * 60 = 999999960 < 1000000000`): the claimed bound
`displayDuration ≥ 1/60 s` fails by the truncation of
`time.Second / 60`. -/
theorem GenerateFrames_duration_below_sixtieth :
    GenerateFrames [("a", 0), ("b", 1000000000)] 60 none =
      some (.ok [⟨"a", 16666666, 0⟩, ⟨"b", 0, 1000000000⟩]) ∧
    ((16666666 : ℚ) / 1000000000 < 1 / 60) := by
  constructor
  · have hv : collectValidFrames none [("a", 0), ("b", 1000000000)] =
        [⟨"a", 0, 0⟩, ⟨"b", 0, 1000000000⟩] := rfl
    have hsort : sortFrames [⟨"a", 0, 0⟩, ⟨"b", 0, 1000000000⟩] =
        [⟨"a", 0, 0⟩, ⟨"b", 0, 1000000000⟩] :=
      List.mergeSort_of_sorted (by decide)
    unfold GenerateFrames
    rw [hv, if_neg (by decide), hsort]
    rfl
  · norm_num

/-- `wrap64` is the identity on values already in the `int64` range. -/
theorem wrap64_eq_self (z : ℤ) (h1 : int64Min ≤ z) (h2 : z ≤ int64Max) :
    wrap64 z = z := by
  unfold wrap64
  unfold int64Min at h1
  unfold int64Max at h2
  rw [Int.emod_eq_of_lt (by omega) (by omega)]
  ring

/-! ## C4: interval filtering and the empty-set error -/

/-- C4: with an interval given, an artifact is retained by the filter
iff its capture time lies in `[Start, End]`, inclusive at both ends;
if the filtered set is empty the scheduler returns only the
`NoArtifacts`-style error (no frames); and every frame of a
successful schedule carries the path and time of an input artifact
whose time lies inside the interval. -/
theorem GenerateFrames_interval_filter :
    (∀ (r : TimeRange) (arts : List (String × ℤ)) (p : String) (t : ℤ),
      (⟨p, 0, t⟩ : FrameInfo) ∈ collectValidFrames (some r) arts ↔
        ((p, t) ∈ arts ∧ r.Start ≤ t ∧ t ≤ r.End)) ∧
    (∀ (arts : List (String × ℤ)) (q : ℚ) (tr : Option TimeRange),
      collectValidFrames tr arts = [] →
      GenerateFrames arts q tr =
        some (.error "no valid image files found in directory")) ∧
    (∀ (arts : List (String × ℤ)) (q : ℚ) (r : TimeRange)
        (out : List FrameInfo),
      GenerateFrames arts q (some r) = some (.ok out) →
      ∀ f ∈ out, (r.Start ≤ f.Time ∧ f.Time ≤ r.End) ∧
        ∃ a ∈ arts, f.Path = a.1 ∧ f.Time = a.2) := by
  refine ⟨?_, ?_, ?_⟩
  · intro r arts p t
    constructor
    · intro h
      rcases List.mem_map.mp h with ⟨a, hafilter, heq⟩
      rcases List.mem_filter.mp hafilter with ⟨hmem, hin⟩
      injection heq with h1 h2 h3
      have ha : a = (p, t) := Prod.ext h1 h3
      subst ha
      simp only [inTimeRange, Bool.not_eq_eq_eq_not, Bool.not_true,
        Bool.or_eq_false_iff, decide_eq_false_iff_not, not_lt] at hin
      exact ⟨hmem, hin.1, hin.2⟩
    · rintro ⟨hmem, h1, h2⟩
      apply List.mem_map.mpr
      refine ⟨(p, t), List.mem_filter.mpr ⟨hmem, ?_⟩, rfl⟩
      simp only [inTimeRange, Bool.not_eq_eq_eq_not, Bool.not_true,
        Bool.or_eq_false_iff, decide_eq_false_iff_not, not_lt]
      exact ⟨h1, h2⟩
  · intro arts q tr h
    simp [GenerateFrames, h]
  · intro arts q r out hgen f hf
    unfold GenerateFrames at hgen
    by_cases hne : collectValidFrames (some r) arts = []
    · rw [if_pos hne] at hgen
      simp at hgen
    · rw [if_neg hne] at hgen
      cases hsorted : sortFrames (collectValidFrames (some r) arts) with
      | nil => rw [hsorted] at hgen; simp at hgen
      | cons c rest =>
        rw [hsorted] at hgen
        change Option.map Except.ok (scheduleFrames q c rest) =
          some (Except.ok out) at hgen
        cases hsched : scheduleFrames q c rest with
        | none => rw [hsched] at hgen; simp at hgen
        | some o =>
          rw [hsched] at hgen
          simp at hgen
          subst hgen
          rcases scheduleFrames_mem q rest c o hsched f hf with ⟨g, hg, hp, ht⟩
          have hgmem : g ∈ sortFrames (collectValidFrames (some r) arts) := by
            rw [hsorted]
            rcases hg with hg | hg
            · simp [hg]
            · exact List.mem_cons_of_mem c hg
          have hgvalid : g ∈ collectValidFrames (some r) arts :=
            (sortFrames_perm _).mem_iff.mp hgmem
          rcases List.mem_map.mp hgvalid with ⟨a, hafilter, heq⟩
          rcases List.mem_filter.mp hafilter with ⟨hmem, hin⟩
          simp only [inTimeRange, Bool.not_eq_eq_eq_not, Bool.not_true,
            Bool.or_eq_false_iff, decide_eq_false_iff_not, not_lt] at hin
          subst heq
          exact ⟨⟨ht ▸ hin.1, ht ▸ hin.2⟩, ⟨a, hmem, hp, ht⟩⟩

/-- Witness for C4's theorem at concrete inputs. -/
theorem GenerateFrames_interval_filter_witness :
    ((("a", 5) ∈ [("a", (5 : ℤ))] ∧ (0 : ℤ) ≤ 5 ∧ (5 : ℤ) ≤ 10) ↔
      (⟨"a", 0, 5⟩ : FrameInfo) ∈
        collectValidFrames (some ⟨0, 10⟩) [("a", 5)]) ∧
    GenerateFrames [("a", 50)] 1 (some ⟨0, 10⟩) =
      some (.error "no valid image files found in directory") :=
  ⟨(GenerateFrames_interval_filter.1 ⟨0, 10⟩ [("a", 5)] "a" 5).symm,
   GenerateFrames_interval_filter.2.1 [("a", 50)] 1 (some ⟨0, 10⟩) (by decide)⟩

/-! ## C2: the gap computation and the speedup ratio -/

/-- C2 (amended): the scheduler first truncates the `float64` speedup
toward zero to an `int64` (`time.Duration(speedup)`); the gap
computation is defined exactly when that truncation is nonzero (a
ratio in `(0, 1)` is a division-by-zero panic), and then equals the
truncated integer division of the nanosecond gap by the truncated
ratio.  The declared ratio is preserved exactly only in the
no-rounding cases: for an integer ratio `q ≥ 1` dividing the gap, the
candidate duration `n` satisfies `n * q = next - cur` exactly. -/
theorem candidateDuration_trunc_semantics :
    (∀ cur next (q : ℚ),
      candidateDuration cur next q = none ↔ goTruncToInt q = 0) ∧
    (∀ cur next (q : ℚ), goTruncToInt q ≠ 0 →
      candidateDuration cur next q =
        some (goQuo64 (goTimeSub next cur) (goTruncToInt q))) ∧
    (∀ cur next (q : ℚ) (n : ℤ), q.den = 1 → 1 ≤ q.num → 0 ≤ n →
      next - cur = q.num * n → next - cur ≤ int64Max →
      candidateDuration cur next q = some n ∧
        (n : ℚ) * q = ((next : ℚ) - (cur : ℚ))) := by
  refine ⟨?_, ?_, ?_⟩
  · intro cur next q
    constructor
    · intro h
      by_contra hz
      rw [candidateDuration_some cur next q hz] at h
      cases h
    · intro hz
      exact candidateDuration_none cur next q hz
  · intro cur next q hz
    exact candidateDuration_some cur next q hz
  · intro cur next q n hden hnum hn hdiff hbound
    have hq0 : q.num ≠ 0 := by omega
    have htr : goTruncToInt q = q.num := by
      unfold goTruncToInt
      rw [hden]
      simp [Int.tdiv_one]
    have hdlow : (0 : ℤ) ≤ next - cur := by
      rw [hdiff]; positivity
    have hsub : goTimeSub next cur = next - cur := by
      unfold goTimeSub int64Min int64Max
      unfold int64Max at hbound
      omega
    have hnle : n ≤ next - cur := by
      rw [hdiff]
      nlinarith
    constructor
    · rw [candidateDuration_some cur next q (htr ▸ hq0), htr, hsub, hdiff]
      unfold goQuo64
      rw [Int.mul_tdiv_cancel_left n hq0,
        wrap64_eq_self n (by unfold int64Min int64Max at *; omega)
          (by unfold int64Max at *; omega)]
    · have hqeq : (q.num : ℚ) = q := by
        conv_rhs => rw [← Rat.num_div_den q]
        rw [hden]
        simp
      have := congrArg (fun z : ℤ => (z : ℚ)) hdiff
      push_cast at this
      rw [← hqeq]
      linarith

/-- Witness for C2's theorem at a concrete input: gap 3 s, integer
ratio 3. -/
theorem candidateDuration_trunc_semantics_witness :
    candidateDuration 0 3000000000 3 = some 1000000000 ∧
    ((1000000000 : ℚ) * 3 = ((3000000000 : ℚ) - (0 : ℚ))) :=
  candidateDuration_trunc_semantics.2.2 0 3000000000 3 1000000000
    (by decide) (by decide) (by decide) (by decide) (by decide)

/-- C2 counterexample: for the positive non-integer ratio `3/2` the
computed gap over a 3 s spacing is 3 s (the ratio is truncated to 1),
not the exact `3 s / (3/2) = 2 s`; and for the positive ratio `1/2`
the computation is not defined at all (division-by-zero panic). -/
theorem candidateDuration_fractional_ratio_wrong :
    candidateDuration 0 3000000000 (mkRat 3 2) = some 3000000000 ∧
    (mkRat 3 2 : ℚ) = 3 / 2 ∧
    ((3000000000 : ℚ) ≠ ((3000000000 : ℚ) - (0 : ℚ)) / (mkRat 3 2)) ∧
    candidateDuration 0 1000000000 (mkRat 1 2) = none ∧
    (mkRat 1 2 : ℚ) = 1 / 2 ∧ (0 : ℚ) < mkRat 1 2 := by
  refine ⟨by decide, by rw [Rat.mkRat_eq_div]; norm_num, ?_, by decide,
    by rw [Rat.mkRat_eq_div]; norm_num, ?_⟩
  · rw [Rat.mkRat_eq_div]
    norm_num
  · rw [Rat.mkRat_eq_div]
    norm_num

/-! ## Naming-convention lemmas (C10) -/

/-- Code point of a rendered digit. -/
theorem digitChar_toNat (k : ℕ) (hk : k < 10) : (digitChar k).toNat = 48 + k := by
  interval_cases k <;> decide

/-- A rendered digit is a digit character. -/
theorem isDigitChar_digitChar (k : ℕ) (hk : k < 10) :
    isDigitChar (digitChar k) = true := by
  interval_cases k <;> decide

/-- Rendering then reading a digit is the identity. -/
theorem digitVal_digitChar (k : ℕ) (hk : k < 10) : digitVal (digitChar k) = k := by
  interval_cases k <;> decide

/-- Characters of `pad2` are rendered digits. -/
theorem mem_pad2 (n : ℕ) (c : Char) (h : c ∈ pad2 n) :
    ∃ k, k < 10 ∧ c = digitChar k := by
  simp only [pad2, List.mem_cons, List.not_mem_nil, or_false] at h
  rcases h with h | h
  · exact ⟨n / 10 % 10, Nat.mod_lt _ (by norm_num), h⟩
  · exact ⟨n % 10, Nat.mod_lt _ (by norm_num), h⟩

/-- Characters of `pad4` are rendered digits. -/
theorem mem_pad4 (n : ℕ) (c : Char) (h : c ∈ pad4 n) :
    ∃ k, k < 10 ∧ c = digitChar k := by
  simp only [pad4, List.mem_cons, List.not_mem_nil, or_false] at h
  rcases h with h | h | h | h
  · exact ⟨n / 1000 % 10, Nat.mod_lt _ (by norm_num), h⟩
  · exact ⟨n / 100 % 10, Nat.mod_lt _ (by norm_num), h⟩
  · exact ⟨n / 10 % 10, Nat.mod_lt _ (by norm_num), h⟩
  · exact ⟨n % 10, Nat.mod_lt _ (by norm_num), h⟩

/-- A non-digit character is not in a `pad2` rendering. -/
theorem not_mem_pad2 (n : ℕ) (c : Char) (hc : c.toNat < 48 ∨ 57 < c.toNat) :
    c ∉ pad2 n := by
  intro h
  rcases mem_pad2 n c h with ⟨k, hk, rfl⟩
  rw [digitChar_toNat k hk] at hc
  omega

/-- A non-digit character is not in a `pad4` rendering. -/
theorem not_mem_pad4 (n : ℕ) (c : Char) (hc : c.toNat < 48 ∨ 57 < c.toNat) :
    c ∉ pad4 n := by
  intro h
  rcases mem_pad4 n c h with ⟨k, hk, rfl⟩
  rw [digitChar_toNat k hk] at hc
  omega

/-- `takeWhile` over a satisfying block stops exactly at the first
failing element. -/
theorem takeWhile_all_append (p : Char → Bool) (xs : List Char) (y : Char)
    (ys : List Char) (hx : ∀ c ∈ xs, p c = true) (hy : p y = false) :
    (xs ++ y :: ys).takeWhile p = xs := by
  induction xs with
  | nil => simp [List.takeWhile, hy]
  | cons a as ih =>
    have ha : p a = true := hx a (List.mem_cons_self a as)
    simp only [List.cons_append, List.takeWhile_cons, ha, if_true]
    rw [ih (fun c hc => hx c (List.mem_cons_of_mem a hc))]

/-- `filepath.Base` of a built path whose final element has no
separator. -/
theorem goBasename_append (a b : List Char) (hb : ∀ c ∈ b, c ≠ '/') :
    goBasename (a ++ '/' :: b) = b := by
  unfold goBasename
  rw [List.reverse_append, List.reverse_cons, List.append_assoc]
  simp only [List.singleton_append]
  rw [takeWhile_all_append _ b.reverse '/' a.reverse
    (fun c hc => by simpa using hb c (List.mem_reverse.mp hc))
    (by simp)]
  exact List.reverse_reverse b

/-- `strings.Split` of a separator-free string. -/
theorem goSplit_not_mem (sep : Char) (l : List Char) (h : sep ∉ l) :
    goSplit sep l = [l] := by
  induction l with
  | nil => rfl
  | cons c cs ih =>
    have hc : ¬(c = sep) := fun hc => h (hc ▸ List.mem_cons_self c cs)
    have hcs : sep ∉ cs := fun hcs => h (List.mem_cons_of_mem c hcs)
    simp only [goSplit, if_neg hc, ih hcs]

/-- `strings.Split` peels one leading separator-free field. -/
theorem goSplit_append (sep : Char) (a b : List Char) (h : sep ∉ a) :
    goSplit sep (a ++ sep :: b) = a :: goSplit sep b := by
  induction a with
  | nil => simp [goSplit]
  | cons c cs ih =>
    have hc : ¬(c = sep) := fun hc => h (hc ▸ List.mem_cons_self c cs)
    have hcs : sep ∉ cs := fun hcs => h (List.mem_cons_of_mem c hcs)
    simp only [List.cons_append, goSplit, if_neg hc, List.append_eq, ih hcs]

/-- `getnum` reads back a `pad2` rendering. -/
theorem getnum_pad2 (fx : Bool) (n : ℕ) (rest : List Char) (hn : n < 100) :
    getnum fx (pad2 n ++ rest) = .ok (n, rest) := by
  have h1 : n / 10 % 10 < 10 := Nat.mod_lt _ (by norm_num)
  have h2 : n % 10 < 10 := Nat.mod_lt _ (by norm_num)
  show getnum fx (digitChar (n / 10 % 10) :: digitChar (n % 10) :: rest) =
    .ok (n, rest)
  simp only [getnum, isDigitChar_digitChar _ h1, isDigitChar_digitChar _ h2,
    if_true, digitVal_digitChar _ h1, digitVal_digitChar _ h2]
  have : 10 * (n / 10 % 10) + n % 10 = n := by omega
  rw [this]

/-- `getnum4` reads back a `pad4` rendering. -/
theorem getnum4_pad4 (n : ℕ) (rest : List Char) (hn : n < 10000) :
    getnum4 (pad4 n ++ rest) = .ok (n, rest) := by
  have h1 : n / 1000 % 10 < 10 := Nat.mod_lt _ (by norm_num)
  have h2 : n / 100 % 10 < 10 := Nat.mod_lt _ (by norm_num)
  have h3 : n / 10 % 10 < 10 := Nat.mod_lt _ (by norm_num)
  have h4 : n % 10 < 10 := Nat.mod_lt _ (by norm_num)
  show getnum4 (digitChar (n / 1000 % 10) :: digitChar (n / 100 % 10) ::
    digitChar (n / 10 % 10) :: digitChar (n % 10) :: rest) = .ok (n, rest)
  simp only [getnum4, isDigitChar_digitChar _ h1, isDigitChar_digitChar _ h2,
    isDigitChar_digitChar _ h3, isDigitChar_digitChar _ h4, Bool.and_self,
    if_true, valDigits, List.foldl, digitVal_digitChar _ h1,
    digitVal_digitChar _ h2, digitVal_digitChar _ h3, digitVal_digitChar _ h4]
  rw [show 10 * (10 * (10 * (10 * 0 + n / 1000 % 10) + n / 100 % 10) +
      n / 10 % 10) + n % 10 = n from by omega]

/-- A month never has more than 31 days. -/
theorem daysIn_le (y mo : ℕ) : daysIn y mo ≤ 31 := by
  unfold daysIn
  split
  · split <;> omega
  · split <;> omega

/-- The stamp layout reads back the rendered date and time fields. -/
theorem parseStampLayout_pads (y mo d h mi s : ℕ)
    (hy : y < 10000) (hmo : 1 ≤ mo ∧ mo ≤ 12) (hd : 1 ≤ d ∧ d ≤ daysIn y mo)
    (hh : h ≤ 23) (hmi : mi ≤ 59) (hs : s ≤ 59) :
    parseStampLayout (pad4 y ++ (pad2 mo ++ (pad2 d ++ ('_' ::
      (pad2 h ++ (pad2 mi ++ pad2 s)))))) = .ok (y, mo, d, h, mi, s) := by
  have hlast : getnum true (pad2 s) = .ok (s, []) := by
    have := getnum_pad2 true s [] (by omega)
    rwa [List.append_nil] at this
  have hd100 : d < 100 := by
    have := daysIn_le y mo
    omega
  simp only [parseStampLayout, getnum4_pad4 y _ hy,
    getnum_pad2 true mo _ (by omega), getnum_pad2 true d _ hd100,
    expectChar, beq_self_eq_true, getnum_pad2 false h _ (by omega),
    getnum_pad2 true mi _ (by omega), hlast, if_true]
  rw [if_pos hmo, if_pos hd, if_pos hh, if_pos hmi, if_pos hs]

/-- `filepath.Ext` of a dotless stem plus `.jpg`. -/
theorem goExt_jpg (xs : List Char) :
    goExt (xs ++ ('.' :: ("jpg".toList))) = '.' :: ("jpg".toList) := by
  unfold goExt
  rw [show xs ++ ('.' :: ("jpg".toList)) =
    xs ++ ('.' :: ("jpg".toList)) from rfl]
  rw [List.reverse_append]
  rw [show ('.' :: ("jpg".toList)).reverse = ['g', 'p', 'j', '.'] from rfl]
  rw [show (['g', 'p', 'j', '.'] : List Char) ++ xs.reverse =
    ['g', 'p', 'j'] ++ '.' :: xs.reverse from rfl]
  rw [takeWhile_all_append _ ['g', 'p', 'j'] '.' xs.reverse (by decide) (by decide)]
  rw [if_neg (by simp [List.length_append])]
  rfl

/-- `strings.TrimSuffix` strips `.jpg` back off. -/
theorem goTrimSuffix_jpg (xs : List Char) :
    goTrimSuffix (xs ++ ('.' :: ("jpg".toList))) ('.' :: ("jpg".toList)) = xs := by
  unfold goTrimSuffix
  rw [if_pos (List.isSuffixOf_iff_suffix.mpr (List.suffix_append xs _))]
  rw [show (xs ++ ('.' :: ("jpg".toList))).length - ('.' :: ("jpg".toList)).length
    = xs.length from by simp [List.length_append]]
  exact List.take_left xs _

/-- No path separator occurs in an emitted frame filename. -/
theorem frameFilename_no_slash (dt : DateTime) : '/' ∉ frameFilename dt := by
  intro h
  simp only [frameFilename, List.mem_append, List.mem_cons] at h
  have hp4 := not_mem_pad4 dt.year '/' (by decide)
  have hp2mo := not_mem_pad2 dt.month '/' (by decide)
  have hp2d := not_mem_pad2 dt.day '/' (by decide)
  have hp2h := not_mem_pad2 dt.hour '/' (by decide)
  have hp2mi := not_mem_pad2 dt.minute '/' (by decide)
  have hp2s := not_mem_pad2 dt.second '/' (by decide)
  have hlit1 : '/' ∉ ("nest_camera_frame_".toList) := by decide
  have hlit2 : '/' ∉ (".jpg".toList) := by decide
  have hne : ('/' : Char) ≠ '_' := by decide
  tauto

/-- `parseFrameTime` on a name splitting into exactly five parts. -/
theorem parseFrameTime_five (f p1 p2 p3 p4 p5 : List Char)
    (h : goSplit '_' (goBasename f) = [p1, p2, p3, p4, p5]) :
    parseFrameTime f =
      match parseStampLayout (p4 ++ '_' :: goTrimSuffix p5 (goExt p5)) with
      | .ok (y, mo, d, h, mi, s) => some (.ok ⟨y, mo, d, h, mi, s, 0⟩)
      | .error _ => some (.error "invalid timestamp in filename") := by
  simp only [parseFrameTime, h]
  rfl

/-! ## C10: the artifact-naming round trip -/

/-- C10: for every calendar-valid instant (year at most 9999, the
range the 8-digit date encoding covers), the filename written by
`ExtractFirstFrame` under any output directory is parsed back by
`parseFrameTime` to the same instant truncated to whole seconds. -/
theorem frameFilename_roundtrip (dir : List Char) (dt : DateTime)
    (hv : ValidInstant dt) :
    parseFrameTime (dir ++ '/' :: frameFilename dt) = some (.ok (truncSec dt)) := by
  obtain ⟨h9999, hmo1, hmo12, hd1, hdd, hh, hmi, hs, hns⟩ := hv
  have hD8 : '_' ∉ pad4 dt.year ++ pad2 dt.month ++ pad2 dt.day := by
    intro h
    simp only [List.mem_append] at h
    rcases h with (h | h) | h
    · exact not_mem_pad4 dt.year '_' (by decide) h
    · exact not_mem_pad2 dt.month '_' (by decide) h
    · exact not_mem_pad2 dt.day '_' (by decide) h
  have hT6 : '_' ∉ ((pad2 dt.hour ++ pad2 dt.minute) ++ pad2 dt.second) ++
      ('.' :: ("jpg".toList)) := by
    intro h
    simp only [List.mem_append] at h
    rcases h with ((h | h) | h) | h
    · exact not_mem_pad2 dt.hour '_' (by decide) h
    · exact not_mem_pad2 dt.minute '_' (by decide) h
    · exact not_mem_pad2 dt.second '_' (by decide) h
    · revert h; decide
  have hshape : frameFilename dt =
      ['n', 'e', 's', 't'] ++ '_' ::
      (['c', 'a', 'm', 'e', 'r', 'a'] ++ '_' ::
      (['f', 'r', 'a', 'm', 'e'] ++ '_' ::
      ((pad4 dt.year ++ pad2 dt.month ++ pad2 dt.day) ++ '_' ::
      (((pad2 dt.hour ++ pad2 dt.minute) ++ pad2 dt.second) ++
        ('.' :: ("jpg".toList)))))) := by
    unfold frameFilename
    rw [List.append_assoc
      (("nest_camera_frame_".toList) ++ pad4 dt.year ++ pad2 dt.month ++ pad2 dt.day)
      ('_' :: (pad2 dt.hour ++ pad2 dt.minute ++ pad2 dt.second))
      (".jpg".toList)]
    rfl
  have hbase : goBasename (dir ++ '/' :: frameFilename dt) = frameFilename dt :=
    goBasename_append dir _ (fun c hc hceq => frameFilename_no_slash dt (hceq ▸ hc))
  have hsplit : goSplit '_' (goBasename (dir ++ '/' :: frameFilename dt)) =
      [['n', 'e', 's', 't'], ['c', 'a', 'm', 'e', 'r', 'a'],
       ['f', 'r', 'a', 'm', 'e'],
       pad4 dt.year ++ pad2 dt.month ++ pad2 dt.day,
       ((pad2 dt.hour ++ pad2 dt.minute) ++ pad2 dt.second) ++
         ('.' :: ("jpg".toList))] := by
    rw [hbase, hshape]
    rw [goSplit_append _ _ _ (by decide)]
    rw [goSplit_append _ _ _ (by decide)]
    rw [goSplit_append _ _ _ (by decide)]
    rw [goSplit_append _ _ _ hD8]
    rw [goSplit_not_mem _ _ hT6]
  rw [parseFrameTime_five _ _ _ _ _ _ hsplit]
  rw [goExt_jpg, goTrimSuffix_jpg]
  have hstamp : (pad4 dt.year ++ pad2 dt.month ++ pad2 dt.day) ++ '_' ::
      ((pad2 dt.hour ++ pad2 dt.minute) ++ pad2 dt.second) =
      pad4 dt.year ++ (pad2 dt.month ++ (pad2 dt.day ++ ('_' ::
      (pad2 dt.hour ++ (pad2 dt.minute ++ pad2 dt.second))))) := by
    simp [List.append_assoc]
  rw [hstamp, parseStampLayout_pads dt.year dt.month dt.day dt.hour dt.minute
    dt.second (by omega) ⟨hmo1, hmo12⟩ ⟨hd1, hdd⟩ hh hmi hs]
  rfl

/-- Witness for C10's theorem at a concrete instant and directory. -/
theorem frameFilename_roundtrip_witness :
    parseFrameTime (("/out/2024/03/20".toList) ++ '/' ::
      frameFilename ⟨2024, 3, 20, 14, 30, 45, 123456789⟩) =
      some (.ok ⟨2024, 3, 20, 14, 30, 45, 0⟩) :=
  frameFilename_roundtrip ("/out/2024/03/20".toList)
    ⟨2024, 3, 20, 14, 30, 45, 123456789⟩ (by decide)

/-! ## `ParseDuration` lemmas (C7) -/

/-- Enumerate the unit letters. -/
theorem unit_cases (u : Char) (hu : isUnitChar u = true) :
    u = 'w' ∨ u = 'd' ∨ u = 'h' ∨ u = 'm' := by
  simp only [isUnitChar, Bool.or_eq_true, beq_iff_eq] at hu
  tauto

/-- A unit letter is not a digit. -/
theorem unit_not_digit (u : Char) (hu : isUnitChar u = true) :
    isDigitChar u = false := by
  rcases unit_cases u hu with rfl | rfl | rfl | rfl <;> decide

/-- Every recognized unit is worth at least one nanosecond. -/
theorem unitNanos_ge_one (u : Char) (hu : isUnitChar u = true) :
    1 ≤ unitNanos u := by
  rcases unit_cases u hu with rfl | rfl | rfl | rfl <;> decide

/-- Unit values are nonnegative. -/
theorem unitNanos_nonneg (c : Char) : 0 ≤ unitNanos c := by
  unfold unitNanos
  repeat' split
  all_goals norm_num [hourNs, minuteNs]

/-- Splitter step: a digit opens a number. -/
theorem splitDur_digit_start (c : Char) (cs : List Char)
    (parts : List (List Char)) (cur : List Char) (hc : isDigitChar c = true) :
    splitDurParts (c :: cs) parts cur false =
      splitDurParts cs parts (cur ++ [c]) true := by
  simp [splitDurParts, hc]

/-- Splitter step: a digit continues a number. -/
theorem splitDur_digit_cont (c : Char) (cs : List Char)
    (parts : List (List Char)) (cur : List Char) (hc : isDigitChar c = true) :
    splitDurParts (c :: cs) parts cur true =
      splitDurParts cs parts (cur ++ [c]) true := by
  simp [splitDurParts, hc]

/-- Splitter step: a unit letter closes a pending number. -/
theorem splitDur_unit_end (c : Char) (cs : List Char)
    (parts : List (List Char)) (cur : List Char)
    (hc : isUnitChar c = true) (hcd : isDigitChar c = false) :
    splitDurParts (c :: cs) parts cur true =
      splitDurParts cs ((cur ++ [c]) :: parts) [] false := by
  simp [splitDurParts, hc, hcd]

/-- Splitter step: a unit letter with no pending number is silently
skipped (the Go loop has no branch for this case). -/
theorem splitDur_unit_skip (c : Char) (cs : List Char)
    (parts : List (List Char)) (cur : List Char)
    (hc : isUnitChar c = true) (hcd : isDigitChar c = false) :
    splitDurParts (c :: cs) parts cur false =
      splitDurParts cs parts cur false := by
  simp [splitDurParts, hc, hcd]

/-- Splitter step: anything else is an immediate error. -/
theorem splitDur_invalid_step (c : Char) (cs : List Char)
    (parts : List (List Char)) (cur : List Char) (inNum : Bool)
    (hcd : isDigitChar c = false) (hcu : isUnitChar c = false) :
    splitDurParts (c :: cs) parts cur inNum =
      .error "invalid character in duration" := by
  cases inNum <;> simp [splitDurParts, hcd, hcu]

/-- A character outside digits and units anywhere in the input makes
the splitter fail with the invalid-character error. -/
theorem splitDurParts_invalid (c : Char) (hcd : isDigitChar c = false)
    (hcu : isUnitChar c = false) :
    ∀ (l : List Char) (parts : List (List Char)) (cur : List Char)
      (inNum : Bool), c ∈ l →
      splitDurParts l parts cur inNum = .error "invalid character in duration" := by
  intro l
  induction l with
  | nil => intro _ _ _ hc; cases hc
  | cons x rest ih =>
    intro parts cur inNum hc
    by_cases hxd : isDigitChar x = true
    · have hxc : c ≠ x := fun e => by rw [e, hxd] at hcd; cases hcd
      have hcrest : c ∈ rest := by
        rcases List.mem_cons.mp hc with e | hr
        · exact absurd e hxc
        · exact hr
      cases inNum
      · rw [splitDur_digit_start x rest parts cur hxd]
        exact ih _ _ _ hcrest
      · rw [splitDur_digit_cont x rest parts cur hxd]
        exact ih _ _ _ hcrest
    · by_cases hxu : isUnitChar x = true
      · have hxc : c ≠ x := fun e => by rw [e, hxu] at hcu; cases hcu
        have hcrest : c ∈ rest := by
          rcases List.mem_cons.mp hc with e | hr
          · exact absurd e hxc
          · exact hr
        have hxd0 : isDigitChar x = false := by
          cases h : isDigitChar x
          · rfl
          · exact absurd h hxd
        cases inNum
        · rw [splitDur_unit_skip x rest parts cur hxu hxd0]
          exact ih _ _ _ hcrest
        · rw [splitDur_unit_end x rest parts cur hxu hxd0]
          exact ih _ _ _ hcrest
      · have hxd0 : isDigitChar x = false := by
          cases h : isDigitChar x
          · rfl
          · exact absurd h hxd
        have hxu0 : isUnitChar x = false := by
          cases h : isUnitChar x
          · rfl
          · exact absurd h hxu
        exact splitDur_invalid_step x rest parts cur inNum hxd0 hxu0

/-- On digits-and-units input ending in a digit, the splitter fails
with the incomplete-duration error. -/
theorem splitDurParts_trailing (d : Char) (hd : isDigitChar d = true) :
    ∀ (l : List Char) (parts : List (List Char)) (cur : List Char)
      (inNum : Bool),
      (∀ c ∈ l, isDigitChar c = true ∨ isUnitChar c = true) →
      splitDurParts (l ++ [d]) parts cur inNum =
        .error "incomplete duration: missing unit" := by
  intro l
  induction l with
  | nil =>
    intro parts cur inNum _
    cases inNum
    · rw [List.nil_append, splitDur_digit_start d [] parts cur hd]
      rfl
    · rw [List.nil_append, splitDur_digit_cont d [] parts cur hd]
      rfl
  | cons x rest ih =>
    intro parts cur inNum hall
    have hxv := hall x (List.mem_cons_self x rest)
    have hrest : ∀ c ∈ rest, isDigitChar c = true ∨ isUnitChar c = true :=
      fun c hc => hall c (List.mem_cons_of_mem x hc)
    rcases hxv with hxd | hxu
    · cases inNum
      · rw [List.cons_append, splitDur_digit_start x (rest ++ [d]) parts cur hxd]
        exact ih _ _ _ hrest
      · rw [List.cons_append, splitDur_digit_cont x (rest ++ [d]) parts cur hxd]
        exact ih _ _ _ hrest
    · have hxd0 : isDigitChar x = false := unit_not_digit x hxu
      cases inNum
      · rw [List.cons_append, splitDur_unit_skip x (rest ++ [d]) parts cur hxu hxd0]
        exact ih _ _ _ hrest
      · rw [List.cons_append, splitDur_unit_end x (rest ++ [d]) parts cur hxu hxd0]
        exact ih _ _ _ hrest

/-- The splitter consumes the digits of one term and the closing
unit. -/
theorem splitDurParts_digits (u : Char) (hu : isUnitChar u = true)
    (rest : List Char) :
    ∀ (ds cur : List Char) (parts : List (List Char)),
      (∀ c ∈ ds, isDigitChar c = true) →
      splitDurParts (ds ++ u :: rest) parts cur true =
        splitDurParts rest ((cur ++ (ds ++ [u])) :: parts) [] false := by
  have hud : isDigitChar u = false := unit_not_digit u hu
  intro ds
  induction ds with
  | nil =>
    intro cur parts _
    rw [List.nil_append, splitDur_unit_end u rest parts cur hu hud]
    simp
  | cons d ds' ih =>
    intro cur parts hdig
    have hd : isDigitChar d = true := hdig d (List.mem_cons_self d ds')
    rw [List.cons_append, splitDur_digit_cont d (ds' ++ u :: rest) parts cur hd]
    rw [ih (cur ++ [d]) parts (fun c hc => hdig c (List.mem_cons_of_mem d hc))]
    simp

/-- The splitter consumes one whole well-formed term. -/
theorem splitDurParts_term (u : Char) (hu : isUnitChar u = true)
    (rest ds : List Char) (hne : ds ≠ [])
    (hdig : ∀ c ∈ ds, isDigitChar c = true) (parts : List (List Char)) :
    splitDurParts (ds ++ u :: rest) parts [] false =
      splitDurParts rest ((ds ++ [u]) :: parts) [] false := by
  cases ds with
  | nil => exact absurd rfl hne
  | cons d ds' =>
    have hd : isDigitChar d = true := hdig d (List.mem_cons_self d ds')
    rw [List.cons_append, splitDur_digit_start d (ds' ++ u :: rest) parts [] hd]
    simp only [List.nil_append]
    rw [splitDurParts_digits u hu rest ds' [d] parts
      (fun c hc => hdig c (List.mem_cons_of_mem d hc))]
    simp

/-- The splitter maps a rendered well-formed term list to exactly its
parts. -/
theorem splitDurParts_render :
    ∀ (terms : List (List Char × Char)) (parts : List (List Char)),
      (∀ t ∈ terms, WfTerm t) →
      splitDurParts (renderTerms terms) parts [] false =
        .ok (parts.reverse ++ terms.map (fun t => t.1 ++ [t.2])) := by
  intro terms
  induction terms with
  | nil =>
    intro parts _
    simp [renderTerms, splitDurParts]
  | cons t ts ih =>
    intro parts hwf
    obtain ⟨hne, hdig, hu⟩ := hwf t (List.mem_cons_self t ts)
    have hr : renderTerms (t :: ts) = t.1 ++ t.2 :: renderTerms ts := by
      simp [renderTerms]
    rw [hr, splitDurParts_term t.2 hu (renderTerms ts) t.1 hne hdig parts]
    rw [ih ((t.1 ++ [t.2]) :: parts) (fun s hs => hwf s (List.mem_cons_of_mem t hs))]
    simp

/-- `dropWhile not-digit` leaves a digit-headed (or empty) list
alone. -/
theorem dropWhile_not_digit (xs : List Char)
    (h : ∀ c ∈ xs, isDigitChar c = true) :
    xs.dropWhile (fun c => !isDigitChar c) = xs := by
  cases xs with
  | nil => rfl
  | cons x xs' =>
    have hx := h x (List.mem_cons_self x xs')
    simp [List.dropWhile_cons, hx]

/-- The numeral of a rendered term is its digit string. -/
theorem numOfPart_render (ds : List Char) (u : Char)
    (hdig : ∀ c ∈ ds, isDigitChar c = true) (hu : isUnitChar u = true) :
    numOfPart (ds ++ [u]) = ds := by
  unfold numOfPart
  rw [List.reverse_append]
  simp only [List.reverse_cons, List.reverse_nil, List.nil_append,
    List.singleton_append, List.dropWhile_cons, unit_not_digit u hu,
    Bool.not_false, if_true]
  rw [dropWhile_not_digit ds.reverse
    (fun c hc => hdig c (List.mem_reverse.mp hc))]
  exact List.reverse_reverse ds

/-- The unit of a rendered term is its unit letter. -/
theorem unitOfPart_render (ds : List Char) (u : Char)
    (hdig : ∀ c ∈ ds, isDigitChar c = true) (hu : isUnitChar u = true) :
    unitOfPart (ds ++ [u]) = [u] := by
  unfold unitOfPart
  induction ds with
  | nil =>
    simp [List.dropWhile_cons, unit_not_digit u hu]
  | cons d ds' ih =>
    have hd := hdig d (List.mem_cons_self d ds')
    rw [List.cons_append]
    simp only [List.dropWhile_cons, hd, if_true]
    exact ih (fun c hc => hdig c (List.mem_cons_of_mem d hc))

/-- `Atoi` reads back a digit string within `int64` range. -/
theorem goAtoi_digits (ds : List Char) (hne : ds ≠ [])
    (hdig : ∀ c ∈ ds, isDigitChar c = true)
    (hbound : (valDigits ds : ℤ) ≤ int64Max) :
    goAtoi ds = .ok (valDigits ds) := by
  unfold goAtoi
  rw [if_neg hne, if_pos (List.all_eq_true.mpr hdig), if_pos hbound]

/-- `goMul64` is exact multiplication within `int64` range. -/
theorem goMul64_eq (a b : ℤ) (h0 : 0 ≤ a * b) (h : a * b ≤ int64Max) :
    goMul64 a b = a * b :=
  wrap64_eq_self _ (by unfold int64Min; omega) h

/-- A rendered term evaluates to the exact product when it fits. -/
theorem termOfPart_exact (ds : List Char) (u : Char) (hne : ds ≠ [])
    (hdig : ∀ c ∈ ds, isDigitChar c = true) (hu : isUnitChar u = true)
    (hfit : (valDigits ds : ℤ) * unitNanos u ≤ int64Max) :
    termOfPart (ds ++ [u]) = .ok ((valDigits ds : ℤ) * unitNanos u) := by
  have hn0 : (0 : ℤ) ≤ (valDigits ds : ℤ) := Int.natCast_nonneg _
  have h1 : 1 ≤ unitNanos u := unitNanos_ge_one u hu
  have hnmax : (valDigits ds : ℤ) ≤ int64Max :=
    le_trans (le_mul_of_one_le_right hn0 h1) hfit
  simp only [termOfPart, numOfPart_render ds u hdig hu,
    goAtoi_digits ds hne hdig hnmax, unitOfPart_render ds u hdig hu]
  generalize hndef : (valDigits ds : ℤ) = n at hn0 hfit hnmax
  rcases unit_cases u hu with rfl | rfl | rfl | rfl
  · show Except.ok (goMul64 (goMul64 (goMul64 n 7) 24) hourNs) =
      Except.ok (n * unitNanos 'w')
    rw [show unitNanos 'w' = (604800000000000 : ℤ) from rfl] at hfit ⊢
    rw [goMul64_eq n 7 (by linarith) (by linarith),
      goMul64_eq (n * 7) 24 (by linarith) (by linarith)]
    rw [show hourNs = (3600000000000 : ℤ) from rfl,
      goMul64_eq (n * 7 * 24) 3600000000000 (by linarith) (by linarith)]
    rw [show n * 7 * 24 * 3600000000000 = n * 604800000000000 from by ring]
  · show Except.ok (goMul64 (goMul64 n 24) hourNs) =
      Except.ok (n * unitNanos 'd')
    rw [show unitNanos 'd' = (86400000000000 : ℤ) from rfl] at hfit ⊢
    rw [goMul64_eq n 24 (by linarith) (by linarith)]
    rw [show hourNs = (3600000000000 : ℤ) from rfl,
      goMul64_eq (n * 24) 3600000000000 (by linarith) (by linarith)]
    rw [show n * 24 * 3600000000000 = n * 86400000000000 from by ring]
  · show Except.ok (goMul64 n hourNs) = Except.ok (n * unitNanos 'h')
    rw [show unitNanos 'h' = (3600000000000 : ℤ) from rfl] at hfit ⊢
    rw [show hourNs = (3600000000000 : ℤ) from rfl,
      goMul64_eq n 3600000000000 (by linarith) (by linarith)]
  · show Except.ok (goMul64 n minuteNs) = Except.ok (n * unitNanos 'm')
    rw [show unitNanos 'm' = (60000000000 : ℤ) from rfl] at hfit ⊢
    rw [show minuteNs = (60000000000 : ℤ) from rfl,
      goMul64_eq n 60000000000 (by linarith) (by linarith)]

/-- The exact sum of a term list is nonnegative. -/
theorem durTermsSum_nonneg (ts : List (List Char × Char)) :
    0 ≤ durTermsSum ts := by
  unfold durTermsSum
  apply List.sum_nonneg
  intro x hx
  rcases List.mem_map.mp hx with ⟨t, _, rfl⟩
  exact mul_nonneg (Int.natCast_nonneg _) (unitNanos_nonneg t.2)

/-- The summing loop computes the exact sum of a rendered term list
when the total fits in `int64`. -/
theorem sumParts_exact :
    ∀ (terms : List (List Char × Char)) (acc : ℤ),
      (∀ t ∈ terms, WfTerm t) → 0 ≤ acc →
      acc + durTermsSum terms ≤ int64Max →
      sumParts (terms.map (fun t => t.1 ++ [t.2])) acc =
        .ok (acc + durTermsSum terms) := by
  intro terms
  induction terms with
  | nil =>
    intro acc _ _ _
    simp [sumParts, durTermsSum]
  | cons t ts ih =>
    intro acc hwf hacc hfit
    obtain ⟨hne, hdig, hu⟩ := hwf t (List.mem_cons_self t ts)
    have hsum_cons : durTermsSum (t :: ts) =
        (valDigits t.1 : ℤ) * unitNanos t.2 + durTermsSum ts := by
      simp [durTermsSum]
    have hrest : 0 ≤ durTermsSum ts := durTermsSum_nonneg ts
    have hterm0 : 0 ≤ (valDigits t.1 : ℤ) * unitNanos t.2 :=
      mul_nonneg (Int.natCast_nonneg _) (unitNanos_nonneg t.2)
    have hfit_term : (valDigits t.1 : ℤ) * unitNanos t.2 ≤ int64Max := by
      rw [hsum_cons] at hfit
      omega
    rw [List.map_cons]
    show sumParts ((t.1 ++ [t.2]) :: ts.map (fun t => t.1 ++ [t.2])) acc = _
    rw [show sumParts ((t.1 ++ [t.2]) :: ts.map (fun t => t.1 ++ [t.2])) acc =
        match termOfPart (t.1 ++ [t.2]) with
        | .error e => .error e
        | .ok v => sumParts (ts.map (fun t => t.1 ++ [t.2])) (goAdd64 acc v)
      from rfl]
    rw [termOfPart_exact t.1 t.2 hne hdig hu hfit_term]
    have hadd : goAdd64 acc ((valDigits t.1 : ℤ) * unitNanos t.2) =
        acc + (valDigits t.1 : ℤ) * unitNanos t.2 := by
      apply wrap64_eq_self
      · unfold int64Min
        omega
      · rw [hsum_cons] at hfit
        omega
    show sumParts (ts.map (fun t => t.1 ++ [t.2]))
      (goAdd64 acc ((valDigits t.1 : ℤ) * unitNanos t.2)) = _
    rw [hadd, ih (acc + (valDigits t.1 : ℤ) * unitNanos t.2)
      (fun s hs => hwf s (List.mem_cons_of_mem t hs))
      (by omega) (by rw [hsum_cons] at hfit; omega)]
    rw [hsum_cons]
    ring_nf

/-! ## C7: the compound-duration grammar -/

set_option maxRecDepth 4000 in
/-- C7 (amended): `ParseDuration` accepts every concatenation of
`<integer><unit>` terms with unit in w, d, h, m and returns their
exact nanosecond sum (within `int64`); a character outside digits and
the four unit letters is the invalid-character error; any input
ending in a digit (a trailing numeral with no unit, a decimal-point
input failing earlier) is an error; `"1d6h30m"` is exactly
1 day + 6 hours + 30 minutes; and the empty string is the distinct
absent value.  (Unlike the original claim, the acceptance is not
exact: a unit letter with no pending numeral is silently skipped, not
rejected — see the counterexample.) -/
theorem ParseDuration_grammar :
    (∀ (terms : List (List Char × Char)), terms ≠ [] →
      (∀ t ∈ terms, WfTerm t) → durTermsSum terms ≤ int64Max →
      parseDurationChars (renderTerms terms) = .ok (some (durTermsSum terms))) ∧
    (∀ (l : List Char) (c : Char), c ∈ l → isDigitChar c = false →
      isUnitChar c = false →
      parseDurationChars l = .error "invalid character in duration") ∧
    (∀ (l : List Char) (d : Char), isDigitChar d = true →
      ∃ e, parseDurationChars (l ++ [d]) = .error e) ∧
    ParseDuration "" = .ok none ∧
    ParseDuration "1d6h30m" = .ok (some 109800000000000) ∧
    ParseDuration "1.5h" = .error "invalid character in duration" ∧
    ParseDuration "45" = .error "incomplete duration: missing unit" := by
  refine ⟨?_, ?_, ?_, rfl, rfl, rfl, rfl⟩
  · intro terms hne hwf hfit
    have hrne : renderTerms terms ≠ [] := by
      cases terms with
      | nil => exact absurd rfl hne
      | cons t ts =>
        obtain ⟨hne1, _, _⟩ := hwf t (List.mem_cons_self t ts)
        simp only [renderTerms, List.map_cons, List.flatten_cons]
        intro h
        rcases List.append_eq_nil.mp h with ⟨h1, _⟩
        rcases List.append_eq_nil.mp h1 with ⟨_, h2⟩
        cases h2
    have hsplit := splitDurParts_render terms [] hwf
    simp only [List.reverse_nil, List.nil_append] at hsplit
    have hsum := sumParts_exact terms 0 hwf le_rfl
      (by rw [zero_add]; exact hfit)
    rw [zero_add] at hsum
    unfold parseDurationChars
    rw [if_neg hrne]
    simp only [hsplit, hsum]
  · intro l c hc hcd hcu
    have hlne : l ≠ [] := List.ne_nil_of_mem hc
    unfold parseDurationChars
    rw [if_neg hlne, splitDurParts_invalid c hcd hcu l [] [] false hc]
  · intro l d hd
    by_cases hbad : ∃ c ∈ l, isDigitChar c = false ∧ isUnitChar c = false
    · obtain ⟨c, hc, hcd, hcu⟩ := hbad
      refine ⟨"invalid character in duration", ?_⟩
      have hlne : l ++ [d] ≠ [] := by simp
      unfold parseDurationChars
      rw [if_neg hlne, splitDurParts_invalid c hcd hcu (l ++ [d]) [] [] false
        (List.mem_append_left [d] hc)]
    · push_neg at hbad
      have hall : ∀ c ∈ l, isDigitChar c = true ∨ isUnitChar c = true := by
        intro c hc
        cases hdc : isDigitChar c
        · cases huc : isUnitChar c
          · exact absurd huc (hbad c hc hdc)
          · exact Or.inr rfl
        · exact Or.inl rfl
      refine ⟨"incomplete duration: missing unit", ?_⟩
      have hlne : l ++ [d] ≠ [] := by simp
      unfold parseDurationChars
      rw [if_neg hlne, splitDurParts_trailing d hd l [] [] false hall]

/-- Witness for C7's theorem at the concrete term list `45m`. -/
theorem ParseDuration_grammar_witness :
    parseDurationChars (renderTerms [(['4', '5'], 'm')]) =
      .ok (some (durTermsSum [(['4', '5'], 'm')])) :=
  ParseDuration_grammar.1 [(['4', '5'], 'm')] (by decide) (by decide) (by decide)

/-- C7 counterexample: the input `"d"` is not a concatenation of
`<integer><unit>` terms, yet `ParseDuration` accepts it (the dangling
unit letter is silently skipped) and returns a present zero duration
— distinct from the absent value that only the empty string is
supposed to produce. -/
theorem ParseDuration_dangling_unit :
    ParseDuration "d" = .ok (some 0) ∧ ParseDuration "" = .ok none ∧
    (some (0 : ℤ) ≠ (none : Option ℤ)) :=
  ⟨rfl, rfl, by decide⟩

/-! ## `ParseTime` lemmas (C8) -/

/-- `strings.Contains` for a present character. -/
theorem contains_true_of_mem (l : List Char) (c : Char) (h : c ∈ l) :
    l.contains c = true :=
  List.elem_eq_true_of_mem h

/-- `strings.Contains` for an absent character. -/
theorem contains_false_of_not_mem (l : List Char) (c : Char) (h : c ∉ l) :
    l.contains c = false := by
  rw [Bool.eq_false_iff]
  intro hc
  exact h (List.mem_of_elem_eq_true hc)

/-- Rendered digits are not field separators. -/
theorem isFieldSep_digitChar (k : ℕ) (hk : k < 10) :
    isFieldSep (digitChar k) = false := by
  interval_cases k <;> decide

/-- A run of non-separator characters accumulates into the current
field. -/
theorem fieldsFuncAux_nonsep (f : Char → Bool) :
    ∀ (a rest cur : List Char), (∀ c ∈ a, f c = false) →
      fieldsFuncAux f (a ++ rest) cur = fieldsFuncAux f rest (a.reverse ++ cur) := by
  intro a
  induction a with
  | nil => intro rest cur _; simp
  | cons c cs ih =>
    intro rest cur h
    have hc : f c = false := h c (List.mem_cons_self c cs)
    simp only [List.cons_append, fieldsFuncAux, hc, Bool.false_eq_true, if_false,
      List.append_eq]
    rw [ih rest (c :: cur) (fun x hx => h x (List.mem_cons_of_mem c hx))]
    simp

/-- Separators with no pending field are skipped. -/
theorem fieldsFuncAux_sep_skip (f : Char → Bool) :
    ∀ (run rest : List Char), (∀ c ∈ run, f c = true) →
      fieldsFuncAux f (run ++ rest) [] = fieldsFuncAux f rest [] := by
  intro run
  induction run with
  | nil => intro rest _; rfl
  | cons s run' ih =>
    intro rest h
    have hs : f s = true := h s (List.mem_cons_self s run')
    simp only [List.cons_append, fieldsFuncAux, hs, if_true, List.append_eq]
    exact ih rest (fun x hx => h x (List.mem_cons_of_mem s hx))

/-- A separator run closes the pending field. -/
theorem fieldsFuncAux_sep_break (f : Char → Bool) (s : Char) (run rest cur : List Char)
    (hs : f s = true) (hcur : cur ≠ []) (hrun : ∀ c ∈ run, f c = true) :
    fieldsFuncAux f ((s :: run) ++ rest) cur =
      cur.reverse :: fieldsFuncAux f rest [] := by
  simp only [List.cons_append, fieldsFuncAux, hs, if_true, if_neg hcur,
    List.append_eq]
  rw [fieldsFuncAux_sep_skip f run rest hrun]

/-- A trailing non-separator block yields the final field. -/
theorem fieldsFuncAux_final (f : Char → Bool) :
    ∀ (b cur : List Char), (b ≠ [] ∨ cur ≠ []) → (∀ c ∈ b, f c = false) →
      fieldsFuncAux f b cur = [cur.reverse ++ b] := by
  intro b
  induction b with
  | nil =>
    intro cur hne _
    rcases hne with hne | hne
    · exact absurd rfl hne
    · simp [fieldsFuncAux, hne]
  | cons c cs ih =>
    intro cur _ h
    have hc : f c = false := h c (List.mem_cons_self c cs)
    simp only [fieldsFuncAux, hc, Bool.false_eq_true, if_false]
    rw [ih (c :: cur) (Or.inr (by simp)) (fun x hx => h x (List.mem_cons_of_mem c hx))]
    simp

/-- `FieldsFunc` of a separator-free nonempty string is one field. -/
theorem fieldsFunc_single (f : Char → Bool) (l : List Char) (hl : l ≠ [])
    (h : ∀ c ∈ l, f c = false) : fieldsFunc f l = [l] := by
  unfold fieldsFunc
  rw [fieldsFuncAux_final f l [] (Or.inl hl) h]
  simp

/-- `FieldsFunc` of two separator-free fields joined by one separator
run. -/
theorem fieldsFunc_two (f : Char → Bool) (a run b : List Char)
    (ha : a ≠ []) (hb : b ≠ []) (hrne : run ≠ [])
    (hanon : ∀ c ∈ a, f c = false) (hbnon : ∀ c ∈ b, f c = false)
    (hrun : ∀ c ∈ run, f c = true) :
    fieldsFunc f (a ++ run ++ b) = [a, b] := by
  cases run with
  | nil => exact absurd rfl hrne
  | cons s run' =>
    unfold fieldsFunc
    rw [List.append_assoc, fieldsFuncAux_nonsep f a ((s :: run') ++ b) [] hanon,
      List.append_nil]
    rw [fieldsFuncAux_sep_break f s run' b a.reverse
      (hrun s (List.mem_cons_self s run')) (by simp [ha])
      (fun x hx => hrun x (List.mem_cons_of_mem s hx))]
    rw [List.reverse_reverse, fieldsFuncAux_final f b [] (Or.inl hb) hbnon]
    simp

/-- The clock layout reads back rendered in-range fields. -/
theorem parseClockLayout_pads (h mi : ℕ) (hh : h ≤ 23) (hmi : mi ≤ 59) :
    parseClockLayout (pad2 h ++ ':' :: pad2 mi) = .ok (h, mi) := by
  have hm : getnum true (pad2 mi) = .ok (mi, []) := by
    have := getnum_pad2 true mi [] (by omega)
    rwa [List.append_nil] at this
  simp only [parseClockLayout, getnum_pad2 false h _ (by omega), expectChar,
    beq_self_eq_true, if_true, hm]
  rw [if_pos hh, if_pos hmi]

/-- A seconds component in the clock layout is the extra-text error. -/
theorem parseClockLayout_seconds (h mi s : ℕ) (hh : h < 100) (hmi : mi < 100) :
    parseClockLayout (pad2 h ++ ':' :: (pad2 mi ++ ':' :: pad2 s)) =
      .error "extra text" := by
  simp only [parseClockLayout, getnum_pad2 false h _ hh, expectChar,
    beq_self_eq_true, if_true, getnum_pad2 true mi _ hmi]
  rw [if_neg (by simp [pad2])]

/-- The date layout reads back rendered in-range fields. -/
theorem parseDateLayout_pads (y mo d : ℕ) (hy : y ≤ 9999)
    (hmo : 1 ≤ mo ∧ mo ≤ 12) (hd : 1 ≤ d ∧ d ≤ daysIn y mo) :
    parseDateLayout (pad4 y ++ ('-' :: (pad2 mo ++ ('-' :: pad2 d)))) =
      .ok (y, mo, d) := by
  have hdlast : getnum true (pad2 d) = .ok (d, []) := by
    have hd100 : d < 100 := by
      have := daysIn_le y mo
      omega
    have := getnum_pad2 true d [] hd100
    rwa [List.append_nil] at this
  simp only [parseDateLayout, getnum4_pad4 y _ (by omega), expectChar,
    beq_self_eq_true, if_true, getnum_pad2 true mo _ (by omega), hdlast]
  rw [if_pos hmo, if_pos hd]

/-! ## C8: the absolute-timestamp grammar -/

set_option maxRecDepth 8000 in
/-- C8 (amended): `ParseTime` accepts a bare `HH:MM` time (anchored
to the current local date, seconds 0), a bare `YYYY-MM-DD` date
(start of day), and a date and time joined by exactly one run of
one-or-more separator characters, where a separator is any character
that is neither a digit, an ASCII letter, `:` nor `-` (NOT every
non-alphanumeric character: `:` and `-` are excluded, see the
counterexample); any such run acts as a single separator, so
underscore, space and repeated dots all parse to the same instant;
and a seconds component is a parse error. -/
theorem ParseTime_forms :
    (∀ (nY nMo nD h mi : ℕ), h ≤ 23 → mi ≤ 59 →
      parseTimeChars nY nMo nD (pad2 h ++ ':' :: pad2 mi) =
        .ok (some ⟨nY, nMo, nD, h, mi, 0, 0⟩)) ∧
    (∀ (nY nMo nD y mo d : ℕ), y ≤ 9999 → 1 ≤ mo → mo ≤ 12 → 1 ≤ d →
      d ≤ daysIn y mo →
      parseTimeChars nY nMo nD (pad4 y ++ ('-' :: (pad2 mo ++ ('-' :: pad2 d)))) =
        .ok (some ⟨y, mo, d, 0, 0, 0, 0⟩)) ∧
    (∀ (nY nMo nD y mo d h mi : ℕ) (run : List Char), y ≤ 9999 → 1 ≤ mo →
      mo ≤ 12 → 1 ≤ d → d ≤ daysIn y mo → h ≤ 23 → mi ≤ 59 → run ≠ [] →
      (∀ c ∈ run, isFieldSep c = true) →
      parseTimeChars nY nMo nD
        ((pad4 y ++ ('-' :: (pad2 mo ++ ('-' :: pad2 d)))) ++ run ++
          (pad2 h ++ ':' :: pad2 mi)) =
        .ok (some ⟨y, mo, d, h, mi, 0, 0⟩)) ∧
    (∀ (nY nMo nD h mi s : ℕ), h < 100 → mi < 100 →
      parseTimeChars nY nMo nD (pad2 h ++ ':' :: (pad2 mi ++ ':' :: pad2 s)) =
        .error "invalid time format (must be HH:MM)") ∧
    ParseTime 2025 6 15 "2024-03-20 14:30:45" =
      .error "invalid time format (must be HH:MM)" ∧
    ParseTime 2025 6 15 "2024-03-20_14:30" = ParseTime 2025 6 15 "2024-03-20 14:30" ∧
    ParseTime 2025 6 15 "2024-03-20...14:30" = ParseTime 2025 6 15 "2024-03-20 14:30" ∧
    ParseTime 2025 6 15 "2024-03-20 14:30" = .ok (some ⟨2024, 3, 20, 14, 30, 0, 0⟩) := by
  have hdash2 : ∀ n, '-' ∉ pad2 n := fun n => not_mem_pad2 n '-' (by decide)
  have hdash4 : ∀ n, '-' ∉ pad4 n := fun n => not_mem_pad4 n '-' (by decide)
  have hcol2 : ∀ n, ':' ∉ pad2 n := fun n => not_mem_pad2 n ':' (by decide)
  have hcol4 : ∀ n, ':' ∉ pad4 n := fun n => not_mem_pad4 n ':' (by decide)
  have hsep2 : ∀ n, ∀ c ∈ pad2 n, isFieldSep c = false := by
    intro n c hc
    rcases mem_pad2 n c hc with ⟨k, hk, rfl⟩
    exact isFieldSep_digitChar k hk
  have hsep4 : ∀ n, ∀ c ∈ pad4 n, isFieldSep c = false := by
    intro n c hc
    rcases mem_pad4 n c hc with ⟨k, hk, rfl⟩
    exact isFieldSep_digitChar k hk
  refine ⟨?_, ?_, ?_, ?_, rfl, rfl, rfl, rfl⟩
  · intro nY nMo nD h mi hh hmi
    have hne : pad2 h ++ ':' :: pad2 mi ≠ [] := by simp [pad2]
    have hcol : (pad2 h ++ ':' :: pad2 mi).contains ':' = true :=
      contains_true_of_mem _ _ (List.mem_append_right _ (List.mem_cons_self _ _))
    have hdash : (pad2 h ++ ':' :: pad2 mi).contains '-' = false := by
      apply contains_false_of_not_mem
      intro hmem
      rcases List.mem_append.mp hmem with hm | hm
      · exact hdash2 h hm
      · rcases List.mem_cons.mp hm with e | hm
        · cases e
        · exact hdash2 mi hm
    unfold parseTimeChars
    rw [if_neg hne, hcol, hdash]
    simp only [Bool.not_false, Bool.and_self, if_true]
    rw [parseClockLayout_pads h mi hh hmi]
  · intro nY nMo nD y mo d hy hmo1 hmo12 hd1 hdd
    have hne : pad4 y ++ ('-' :: (pad2 mo ++ ('-' :: pad2 d))) ≠ [] := by
      simp [pad4]
    have hcolF : (pad4 y ++ ('-' :: (pad2 mo ++ ('-' :: pad2 d)))).contains ':' =
        false := by
      apply contains_false_of_not_mem
      intro hmem
      rcases List.mem_append.mp hmem with hm | hm
      · exact hcol4 y hm
      · rcases List.mem_cons.mp hm with e | hm
        · cases e
        · rcases List.mem_append.mp hm with hm | hm
          · exact hcol2 mo hm
          · rcases List.mem_cons.mp hm with e | hm
            · cases e
            · exact hcol2 d hm
    unfold parseTimeChars
    rw [if_neg hne, hcolF]
    simp only [Bool.false_and, Bool.false_eq_true, if_false]
    rw [fieldsFunc_single isFieldSep _ hne ?hnonsep]
    case hnonsep =>
      intro c hc
      rcases List.mem_append.mp hc with hm | hm
      · exact hsep4 y c hm
      · rcases List.mem_cons.mp hm with e | hm
        · subst e; decide
        · rcases List.mem_append.mp hm with hm | hm
          · exact hsep2 mo c hm
          · rcases List.mem_cons.mp hm with e | hm
            · subst e; decide
            · exact hsep2 d c hm
    simp only [parseDateLayout_pads y mo d hy ⟨hmo1, hmo12⟩ ⟨hd1, hdd⟩]
  · intro nY nMo nD y mo d h mi run hy hmo1 hmo12 hd1 hdd hh hmi hrne hrun
    have hDne : pad4 y ++ ('-' :: (pad2 mo ++ ('-' :: pad2 d))) ≠ [] := by
      simp [pad4]
    have hTne : pad2 h ++ ':' :: pad2 mi ≠ [] := by simp [pad2]
    have hne : (pad4 y ++ ('-' :: (pad2 mo ++ ('-' :: pad2 d)))) ++ run ++
        (pad2 h ++ ':' :: pad2 mi) ≠ [] := by simp [pad4]
    have hcolT : (((pad4 y ++ ('-' :: (pad2 mo ++ ('-' :: pad2 d)))) ++ run ++
        (pad2 h ++ ':' :: pad2 mi)).contains ':') = true :=
      contains_true_of_mem _ _ (List.mem_append_right _
        (List.mem_append_right _ (List.mem_cons_self _ _)))
    have hdashD : (((pad4 y ++ ('-' :: (pad2 mo ++ ('-' :: pad2 d)))) ++ run ++
        (pad2 h ++ ':' :: pad2 mi)).contains '-') = true :=
      contains_true_of_mem _ _ (List.mem_append_left _ (List.mem_append_left _
        (List.mem_append_right _ (List.mem_cons_self _ _))))
    unfold parseTimeChars
    rw [if_neg hne, hcolT, hdashD]
    simp only [Bool.not_true, Bool.and_false, Bool.false_eq_true, if_false]
    rw [fieldsFunc_two isFieldSep _ run _ hDne hTne hrne ?hDnon ?hTnon hrun]
    case hDnon =>
      intro c hc
      rcases List.mem_append.mp hc with hm | hm
      · exact hsep4 y c hm
      · rcases List.mem_cons.mp hm with e | hm
        · subst e; decide
        · rcases List.mem_append.mp hm with hm | hm
          · exact hsep2 mo c hm
          · rcases List.mem_cons.mp hm with e | hm
            · subst e; decide
            · exact hsep2 d c hm
    case hTnon =>
      intro c hc
      rcases List.mem_append.mp hc with hm | hm
      · exact hsep2 h c hm
      · rcases List.mem_cons.mp hm with e | hm
        · subst e; decide
        · exact hsep2 mi c hm
    simp only [parseDateLayout_pads y mo d hy ⟨hmo1, hmo12⟩ ⟨hd1, hdd⟩,
      parseClockLayout_pads h mi hh hmi]
  · intro nY nMo nD h mi s hh hmi
    have hne : pad2 h ++ ':' :: (pad2 mi ++ ':' :: pad2 s) ≠ [] := by simp [pad2]
    have hcol : (pad2 h ++ ':' :: (pad2 mi ++ ':' :: pad2 s)).contains ':' = true :=
      contains_true_of_mem _ _ (List.mem_append_right _ (List.mem_cons_self _ _))
    have hdash : (pad2 h ++ ':' :: (pad2 mi ++ ':' :: pad2 s)).contains '-' =
        false := by
      apply contains_false_of_not_mem
      intro hmem
      rcases List.mem_append.mp hmem with hm | hm
      · exact hdash2 h hm
      · rcases List.mem_cons.mp hm with e | hm
        · cases e
        · rcases List.mem_append.mp hm with hm | hm
          · exact hdash2 mi hm
          · rcases List.mem_cons.mp hm with e | hm
            · cases e
            · exact hdash2 s hm
    unfold parseTimeChars
    rw [if_neg hne, hcol, hdash]
    simp only [Bool.not_false, Bool.and_self, if_true]
    rw [parseClockLayout_seconds h mi s hh hmi]

/-- Witness for C8's theorem: the underscore run between date and
time. -/
theorem ParseTime_forms_witness :
    parseTimeChars 2025 6 15
      ((pad4 2024 ++ ('-' :: (pad2 3 ++ ('-' :: pad2 20)))) ++ ['_'] ++
        (pad2 14 ++ ':' :: pad2 30)) =
      .ok (some ⟨2024, 3, 20, 14, 30, 0, 0⟩) :=
  ParseTime_forms.2.2.1 2025 6 15 2024 3 20 14 30 ['_'] (by decide) (by decide)
    (by decide) (by decide) (by decide) (by decide) (by decide) (by decide)
    (by decide)

set_option maxRecDepth 8000 in
/-- C8 counterexample: `-` is non-alphanumeric, but it is not a
separator for `ParseTime` — a hyphen-joined date and time is a parse
error, contradicting the claim that any non-alphanumeric run joins
the two. -/
theorem ParseTime_hyphen_not_separator :
    ParseTime 2025 6 15 "2024-03-20-14:30" =
      .error "invalid date format (must be YYYY-MM-DD)" ∧
    (isDigitChar '-' = false ∧ isLetterChar '-' = false) ∧
    isFieldSep '-' = false :=
  ⟨rfl, by decide, by decide⟩
